import Mathlib

/-!
Verification of pysubtools against its specification.

We shallowly embed the Python sources (pysubtools/parsers/base.py,
pysubtools/parsers/encodings.py, pysubtools/parsers/subrip.py) as executable
Lean definitions and prove the spec claims about them.

Modelling conventions:
* Python `str` values that the parser manipulates line-wise are `List Char`.
* Python whitespace (as consumed by `str.rstrip` / `str.strip` and the
  regex class `\s` on the ASCII inputs involved here) is modelled by
  `isPySpace`; `\d` is modelled by ASCII digits.
* Python floats (the unit timings produced by `float(...)`) are modelled by
  `ℚ`; the decimal literals involved are represented exactly.
* External-library behaviour that consumes data but is not part of this
  repository (the `codecs`/`io` decoders and `chardet`) is abstracted by
  oracle functions passed as parameters; everything the repository itself
  computes is embedded faithfully.
* Python exceptions are explicit: state-passing functions return the mutated
  state together with an optional raised exception.
-/

namespace PySubTools

/-! ## Basic string utilities (Python `str` operations on `List Char`) -/

/-- Whitespace characters stripped by Python `str.strip` et al. (ASCII part). -/
def isPySpace (c : Char) : Bool :=
  c = ' ' || c = '\t' || c = '\n' || c = '\r' || c = '\x0b' || c = '\x0c'

def isAsciiDigit (c : Char) : Bool := '0' ≤ c && c ≤ '9'

/-- Python `str.lstrip()`. -/
def lstrip (l : List Char) : List Char := l.dropWhile isPySpace

/-- Python `str.rstrip()`. -/
def rstrip (l : List Char) : List Char := (l.reverse.dropWhile isPySpace).reverse

/-- Python `str.strip()`. -/
def pyStrip (l : List Char) : List Char := lstrip (rstrip l)

/-- Numeric value of a list of ASCII digit characters (Python `int`). -/
def natOfDigits (l : List Char) : Nat :=
  l.foldl (fun a c => 10 * a + (c.toNat - 48)) 0

/-- The ASCII digit character of a digit value. -/
def digitChar (d : Nat) : Char :=
  (['0', '1', '2', '3', '4', '5', '6', '7', '8', '9'].getD d '9')

def natReprAux : Nat → Nat → List Char → List Char
  | 0, _, acc => acc
  | fuel + 1, n, acc =>
    if n = 0 then acc
    else natReprAux fuel (n / 10) (digitChar (n % 10) :: acc)

/-- Decimal representation of a natural number (Python `str` on an `int`). -/
def natRepr (n : Nat) : List Char :=
  if n = 0 then ['0'] else natReprAux n n []

/-- `int(line.strip())` on a line of optional whitespace around digits. -/
def parseIntStrip (l : List Char) : Nat :=
  natOfDigits ((pyStrip l).takeWhile isAsciiDigit)

/-- Python `line.replace(a, b, 1)` for single characters. -/
def replaceFirstChar (a b : Char) : List Char → List Char
  | [] => []
  | c :: cs => if c = a then b :: cs else c :: replaceFirstChar a b cs

/-- Python `line.index(ch)` (call sites guarantee presence). -/
def idxOfChar (a : Char) : List Char → Nat
  | [] => 0
  | c :: cs => if c = a then 0 else idxOfChar a cs + 1

/-- Python `line.index(sub)` for a substring (call sites guarantee presence). -/
def idxOfSub (sub : List Char) : List Char → Nat
  | [] => 0
  | c :: cs => if sub.isPrefixOf (c :: cs) then 0 else idxOfSub sub cs + 1

/-- Python `s.replace(sub, new, 1)` with `new = ''`: remove the first
occurrence of `sub` (no change when absent, like `str.replace`). -/
def removeFirstSub (sub l : List Char) : List Char :=
  let i := idxOfSub sub l
  if sub.isPrefixOf (l.drop i) then l.take i ++ l.drop (i + sub.length) else l

/-- Python `line.split(sep)` for a single-character separator. -/
def splitCharAux (sep : Char) : List Char → List Char → List (List Char)
  | [], cur => [cur.reverse]
  | c :: cs, cur =>
    if c = sep then cur.reverse :: splitCharAux sep cs []
    else splitCharAux sep cs (c :: cur)

def splitChar (sep : Char) (l : List Char) : List (List Char) :=
  splitCharAux sep l []

/-- Python `line.split('-->')` (non-overlapping, left to right). The inner
match merely re-exposes the two elements that the `rest.take 2` guard has
already certified, so its fallback arm is unreachable. -/
def splitArrowAux : List Char → List Char → List (List Char)
  | [], cur => [cur.reverse]
  | c :: rest, cur =>
    if c = '-' ∧ rest.take 2 = ['-', '>'] then
      match rest with
      | _ :: _ :: rest2 => cur.reverse :: splitArrowAux rest2 []
      | _ => [cur.reverse]
    else splitArrowAux rest (c :: cur)

def splitArrow (l : List Char) : List (List Char) := splitArrowAux l []

/-! ## The regular expressions of `subrip.py`, as deterministic matchers

Each regex used by `SubRipStateMachine` is backtracking-free on inspection
(the character classes involved are disjoint from `\s` and from the literal
separators), so each is embedded as a direct scanner computing the same
match and groups that Python `re` produces. -/

/-- Character class `[0-9:,.]` of the `_header` regex. -/
def isHdrClass (c : Char) : Bool :=
  isAsciiDigit c || c = ':' || c = ',' || c = '.'

/-- `_sequence = ^\s*\d+\s*$` (as a Boolean match). -/
def matchSequence (l : List Char) : Bool :=
  let a := l.dropWhile isPySpace
  let d := a.takeWhile isAsciiDigit
  decide (d ≠ []) && (a.drop d.length).all isPySpace

/-- `_header = ^\s*([0-9:,.]+\s*-->\s*[0-9:,.]+)\s*(.*)$`: returns
`(group 1, group 2)` of the Python match, or `none`. -/
def matchHeader (l : List Char) : Option (List Char × List Char) :=
  let s1 := l.dropWhile isPySpace
  let t1 := s1.takeWhile isHdrClass
  if t1 = [] then none
  else
    let r1 := s1.drop t1.length
    let w1 := r1.takeWhile isPySpace
    let r2 := r1.drop w1.length
    if ['-', '-', '>'].isPrefixOf r2 then
      let r3 := r2.drop 3
      let w2 := r3.takeWhile isPySpace
      let r4 := r3.drop w2.length
      let t2 := r4.takeWhile isHdrClass
      if t2 = [] then none
      else
        let r5 := r4.drop t2.length
        let w3 := r5.takeWhile isPySpace
        some (t1 ++ w1 ++ ['-', '-', '>'] ++ w2 ++ t2, r5.drop w3.length)
    else none

/-- The groups of a `_time = (?:\d{1,2}:){2}\d{1,2},\d{1,3}` prefix match:
hours, minutes, seconds digits and the fractional digits of `group(0)`. -/
structure TimeParts where
  d1 : List Char
  d2 : List Char
  d3 : List Char
  dms : List Char
deriving DecidableEq, Repr

/-- Helper: read `\d{1,2}` followed by a literal, returning digits and rest. -/
def takeShortNum (stop : Char) (l : List Char) : Option (List Char × List Char) :=
  let d := l.takeWhile isAsciiDigit
  if d = [] ∨ 2 < d.length then none
  else
    match l.drop d.length with
    | c :: rest => if c = stop then some (d, rest) else none
    | [] => none

/-- `_time.match` (anchored prefix match). -/
def timeMatch (l : List Char) : Option TimeParts := do
  let (d1, r1) ← takeShortNum ':' l
  let (d2, r2) ← takeShortNum ':' r1
  let (d3, r3) ← takeShortNum ',' r2
  let ms := r3.takeWhile isAsciiDigit
  if ms = [] then none
  else some ⟨d1, d2, d3, ms.take 3⟩

/-- The seconds value computed by `parse_time`'s
`convert = lambda x: int(x[0]) * 3600 + int(x[1]) * 60 + float(...)`;
Python's binary float is modelled by the exact rational. Stated over a
common denominator via `mkRat` so that the kernel can compute it;
`secondsOfParts_eq_formula` proves it equal to the literal
`h * 3600 + m * 60 + (s + frac / 10 ^ k)` of the source. -/
def secondsOfParts (p : TimeParts) : ℚ :=
  mkRat ((natOfDigits p.d1 * 3600 + natOfDigits p.d2 * 60 + natOfDigits p.d3) *
      10 ^ p.dms.length + natOfDigits p.dms) (10 ^ p.dms.length)

/-- `_tagged_header = ^\{([^}]*)\}`: returns `(length of group 0, group 1)`. -/
def matchTagged (l : List Char) : Option (Nat × List Char) :=
  match l with
  | '{' :: rest =>
    let t := rest.takeWhile (fun c => c ≠ '}')
    match rest.drop t.length with
    | '}' :: _ => some (t.length + 2, t)
    | _ => none
  | _ => none

/-- One attempt of `_tag_position = \s*\\pos\(\s*(\d+)\s*,\s*(\d+)\s*\)\s*`
anchored at the head of `l`; returns `(group 0, x digits, y digits)`. -/
def tagPosAt (l : List Char) : Option (List Char × List Char × List Char) :=
  let w0 := l.takeWhile isPySpace
  let r0 := l.drop w0.length
  if ['\\', 'p', 'o', 's', '('].isPrefixOf r0 then
    let r1 := r0.drop 5
    let w1 := r1.takeWhile isPySpace
    let r2 := r1.drop w1.length
    let d1 := r2.takeWhile isAsciiDigit
    if d1 = [] then none
    else
      let r3 := r2.drop d1.length
      let w2 := r3.takeWhile isPySpace
      match r3.drop w2.length with
      | ',' :: r4 =>
        let w3 := r4.takeWhile isPySpace
        let r5 := r4.drop w3.length
        let d2 := r5.takeWhile isAsciiDigit
        if d2 = [] then none
        else
          let r6 := r5.drop d2.length
          let w4 := r6.takeWhile isPySpace
          match r6.drop w4.length with
          | ')' :: r7 =>
            let w5 := r7.takeWhile isPySpace
            some (w0 ++ ['\\', 'p', 'o', 's', '('] ++ w1 ++ d1 ++ w2 ++ [','] ++
                    w3 ++ d2 ++ w4 ++ [')'] ++ w5, d1, d2)
          | _ => none
      | _ => none
  else none

/-- `_tag_position.search`: first match position, scanning left to right. -/
def tagPosSearch : List Char → Option (List Char × List Char × List Char)
  | [] => tagPosAt []
  | c :: cs =>
    match tagPosAt (c :: cs) with
    | some r => some r
    | none => tagPosSearch cs

/-! ## Diagnostics sink (`Parser._add_msg` and friends, base.py) -/

inductive Level
  | warning
  | error
deriving DecidableEq, Repr

/-- `LEVELS = ("warning", "error")`; `LEVELS.index`. -/
def levelsIndex : Level → Nat
  | .warning => 0
  | .error => 1

structure Msg where
  line_number : Int
  col : Int
  line : List Char
  description : String
deriving DecidableEq, Repr

/-- `Parser._add_msg(level, ...)`: if a stop level is configured and the
severity reaches it, raise (first component: the raised exception's level and
payload) leaving both lists untouched; otherwise append to the matching list.
The parser's `_stop_level = None` configuration is `none` here. -/
def addMsgCore (stop : Option Level) (level : Level) (m : Msg)
    (warnings errors : List Msg) : Option (Level × Msg) × List Msg × List Msg :=
  match stop with
  | some sl =>
    if levelsIndex sl ≤ levelsIndex level then (some (level, m), warnings, errors)
    else
      match level with
      | .warning => (none, warnings ++ [m], errors)
      | .error => (none, warnings, errors ++ [m])
  | none =>
    match level with
    | .warning => (none, warnings ++ [m], errors)
    | .error => (none, warnings, errors ++ [m])

/-! ## Line buffer (`Parser` iteration methods, base.py) -/

structure LineBuffer where
  read_lines : List (List Char)
  current_line_num : Int
  current_line : List Char
deriving DecidableEq, Repr

/-- Initial cursor state (`_current_line_num = -1`, empty history; the
`None` of `_current_line` is modelled by the empty line). -/
def LineBuffer.init : LineBuffer := ⟨[], -1, []⟩

inductive FetchErr
  | seekForward
  | indexError
deriving DecidableEq, Repr

/-- Python list subscription with negative-index semantics. -/
def pyListGet (l : List (List Char)) (i : Int) : Except FetchErr (List Char) :=
  if 0 ≤ i then
    match l[i.toNat]? with
    | some x => .ok x
    | none => .error .indexError
  else
    let j : Int := (l.length : Int) + i
    if 0 ≤ j then
      match l[j.toNat]? with
      | some x => .ok x
      | none => .error .indexError
    else .error .indexError

/-- `Parser._fetch_line`. -/
def fetch_line (lb : LineBuffer) (line : Int) : Except FetchErr (List Char) :=
  if line > lb.current_line_num then .error .seekForward
  else (pyListGet lb.read_lines line).map rstrip

/-- `Parser._next_line` over a fixed decoded document (one entry per raw
line, line terminator stripped; the text-stream position is the number of
lines read so far). Returns `none` at end of stream. -/
def next_line (doc : List (List Char)) (lb : LineBuffer) : Option LineBuffer :=
  match doc[lb.read_lines.length]? with
  | none => none
  | some raw => some ⟨lb.read_lines ++ [raw], lb.current_line_num + 1, rstrip raw⟩

/-- `Parser._rewind`: resets the cursor and clears `_read_lines` (and seeks
the underlying stream to the start, which here is implied by the empty
history). -/
def rewind (_lb : LineBuffer) : LineBuffer := ⟨[], -1, []⟩

/-! ## Encoding detection (encodings.py)

The Python `codecs`/`io` decode test and `chardet` are external libraries;
they are abstracted as oracles:
* `dec enc bytes` holds iff decoding `bytes` as `enc` raises neither
  `UnicodeDecodeError` nor `LookupError` and the decoded text contains no
  line with the invalid indicator character `U+009E` (`invalid_chars`);
* `chardet bytes` is `chardet.detect`'s result when it is truthy with a
  non-`None` encoding (`none` otherwise).
Everything else follows `encodings.py` line by line. -/

structure ByteStream where
  data : List Nat
  pos : Nat
deriving DecidableEq, Repr

def bsRead (n : Nat) (st : ByteStream) : List Nat × ByteStream :=
  ((st.data.drop st.pos).take n, { st with pos := min (st.pos + n) st.data.length })

def bsSeek0 (st : ByteStream) : ByteStream := { st with pos := 0 }

/-- `codecs.BOM_UTF8`. -/
def BOM_UTF8 : List Nat := [239, 187, 191]

/-- `codecs.BOM_UTF16` (native order of a little-endian host). -/
def BOM_UTF16 : List Nat := [255, 254]

/-- `can_decode(data, encoding)`: trial-decode from the current position via
the oracle, then `data.seek(0)`. -/
def can_decode (dec : String → List Nat → Bool) (st : ByteStream)
    (encoding : String) : Bool × ByteStream :=
  (dec encoding (st.data.drop st.pos), bsSeek0 st)

/-- The `similar_encodings` table. -/
def similar_encodings (e : String) : List String :=
  if e = "ISO-8859-2" then ["windows-1250"]
  else if e = "windows-1255" then ["windows-1256"]
  else if e = "GB2312" then ["GB18030"]
  else if e = "EUC-TW" then ["BIG5-TW"]
  else []

/-- `guess_from_lang`: the dict literal binds `'es'` twice, so the later
entry (`iso8859-15`) wins. -/
def guess_from_lang (lang : String) : List String :=
  if lang = "sl" then ["windows-1250"]
  else if lang = "ko" then ["euckr"]
  else if lang = "ja" then ["sjis"]
  else if lang = "ar" then ["windows-1256"]
  else if lang = "el" then ["windows-1253"]
  else if lang = "zh" then ["big5"]
  else if lang = "he" then ["windows-1255"]
  else if lang = "ru" then ["koi8-r"]
  else if lang = "es" then ["iso8859-15"]
  else if lang = "fr" then ["windows-1252"]
  else if lang = "bg" then ["windows-1251"]
  else if lang = "mk" then ["windows-1251"]
  else if lang = "th" then ["windows-874"]
  else if lang = "uk" then ["koi8-u"]
  else if lang = "sr" then ["windows-1251"]
  else if lang = "vi" then ["windows-1258"]
  else if lang = "fa" then ["windows-1256"]
  else if lang = "fi" then ["iso8859-15"]
  else []

/-- A candidate of the detection list: a plain string (hint or
language-implied) or the `(encoding, confidence)` tuple from `chardet`. -/
inductive Cand
  | plain (enc : String)
  | guessed (enc : String) (confidence : ℚ)
deriving DecidableEq, Repr

def Cand.enc : Cand → String
  | .plain e => e
  | .guessed e _ => e

/-- The `(encoding, confidence)` pair `detect` returns for a candidate
(`if not isinstance(encoding, tuple): encoding = (encoding, None)`). -/
def Cand.conf : Cand → Option ℚ
  | .plain _ => none
  | .guessed _ c => some c

/-- `tried_encodings.add` (the set is modelled insertion-ordered). -/
def addTried (tried : List String) (e : String) : List String :=
  if e ∈ tried then tried else tried ++ [e]

/-- The candidate list `encodings` as built by `detect` before the loop:
explicit hint, then language-implied encodings, then the `chardet` result.
An empty-string hint is falsy in Python and is ignored, as
`if encoding:` / `if language:` do. -/
def candsOf (encoding language : Option String) (det : Option (String × ℚ)) :
    List Cand :=
  (match encoding with
   | some e => if e = "" then [] else [Cand.plain e]
   | none => []) ++
  (match language with
   | some lg => if lg = "" then [] else (guess_from_lang lg).map Cand.plain
   | none => []) ++
  (match det with
   | some (e, c) => [Cand.guessed e c]
   | none => [])

inductive DetectResult
  | ok (encoding : String) (confidence : Option ℚ)
  | encodingError (message : String) (tried : List String)
  | fuelOut
deriving DecidableEq, Repr

/-- The `while True` loop of `detect`: `encodings` is kept reversed, so
`pop()` takes the last element. `tried_encodings` is a Python `set`,
modelled as a duplicate-free insertion-ordered list. `fuel` only bounds the
recursion; with this `similar_encodings` table the loop pops at most
`stack.length + 4` times, so the `fuelOut` branch is unreachable from
`detect`. -/
def detectLoop (dec : String → List Nat → Bool) :
    Nat → ByteStream → List Cand → List String → DetectResult × ByteStream
  | 0, st, _, _ => (.fuelOut, st)
  | fuel + 1, st, stack, tried =>
    match stack.getLast? with
    | none => (.fuelOut, st)
    | some cand =>
      let stack1 := stack.dropLast
      let (ok, st1) := can_decode dec st cand.enc
      if ok then
        match cand with
        | .plain e => (.ok e none, st1)
        | .guessed e c => (.ok e (some c), st1)
      else
        let tried1 := addTried tried cand.enc
        let similar := similar_encodings cand.enc
        let stack2 :=
          if similar ≠ [] then
            stack1 ++ (similar.filter (fun e => ¬ tried1.contains e)).map .plain
          else stack1
        if stack2 = [] then (.encodingError "Could not detect proper encoding" tried1, st1)
        else detectLoop dec fuel st1 stack2 tried1

/-- `detect(data, encoding, language)`. An empty-string hint is falsy in
Python and is ignored, as `if encoding:` / `if language:` do. -/
def detect (dec : String → List Nat → Bool)
    (chardet : List Nat → Option (String × ℚ)) (st : ByteStream)
    (encoding : Option String) (language : Option String) :
    DetectResult × ByteStream :=
  let (test_data, st1) := bsRead 8 st
  let st2 := bsSeek0 st1
  if BOM_UTF8.isPrefixOf test_data then (.ok "utf-8-sig" none, st2)
  else if BOM_UTF16.isPrefixOf test_data then (.ok "utf16" none, st2)
  else
    let (allData, st3) := (st2.data.drop st2.pos, { st2 with pos := st2.data.length })
    let st4 := bsSeek0 st3
    let cands := candsOf encoding language (chardet allData)
    if cands = [] then (.encodingError "Have no clue where to start." [], st4)
    else detectLoop dec (cands.length + 8) st4 cands.reverse []

/-! ## The SubRip state machine (subrip.py)

`SubRipStateMachine` is embedded as a step function over an explicit state
record. The `state_machine` library's event protocol is: an event fired from
a state outside its `from_states` raises `InvalidStateTransition`; otherwise
the `before` callbacks run (exceptions propagate and cancel the transition),
the state switches, and the `after` callbacks run. `Skip` raised by a
callback is caught by `_parse`'s loop. `add_warning`/`add_error` may raise
`ParseWarning`/`ParseError` (depending on the configured stop level), which
propagate out of `_parse`. A `crash` marks a spot where the Python code
would raise an uncaught runtime exception (e.g. `.group(0)` on a failed
`_time` match inside `fix_sequence_skip`, or an impossible unpacking). -/

inductive MState
  | start
  | unit
  | unit_text
  | finished
deriving DecidableEq, Repr

structure UnitData where
  lines : List (List Char)
  startSec : Option ℚ
  endSec : Option ℚ
  position : Option (Nat × Nat)
deriving DecidableEq, Repr

structure TempUnit where
  sequence : Nat
  data : UnitData
deriving DecidableEq, Repr

inductive Exn
  | skip
  | invalidTrans
  | raisedMsg (level : Level) (m : Msg)
  | crash
deriving DecidableEq, Repr

/-- Combined state: the parser's line buffer and diagnostics lists plus the
machine's fields (`temp`, `_parsed`, `paused`, `_missing_line`). -/
structure S where
  lb : LineBuffer
  warnings : List Msg
  errors : List Msg
  state : MState
  temp : Option TempUnit
  parsedUnit : Option TempUnit
  paused : Bool
  missingLine : Bool
deriving DecidableEq, Repr

def initS : S :=
  ⟨LineBuffer.init, [], [], .start, none, none, false, false⟩

/-- Result of a state-mutating operation that may raise. -/
abbrev Op := S × Option Exn

def opThen (r : Op) (f : S → Op) : Op :=
  match r with
  | (s, none) => f s
  | e => e

/-- `add_warning` / `add_error` on the combined state. -/
def addMsgS (stop : Option Level) (level : Level) (ln col : Int)
    (line : List Char) (descr : String) (s : S) : Op :=
  match addMsgCore stop level ⟨ln, col, line, descr⟩ s.warnings s.errors with
  | (some (lv, m), ws, es) =>
    ({ s with warnings := ws, errors := es }, some (.raisedMsg lv m))
  | (none, ws, es) => ({ s with warnings := ws, errors := es }, none)

/-- `fetch_line(current_line_num)` with exception propagation (a fetch
failure would be an uncaught Python exception). -/
def withFetched (s : S) (i : Int) (f : List Char → Op) : Op :=
  match fetch_line s.lb i with
  | .ok l => f l
  | .error _ => (s, some .crash)

def setCurLine (s : S) (l : List Char) : S :=
  { s with lb := { s.lb with current_line := l } }

def emptyData : UnitData := ⟨[], none, none, none⟩

/-- The Python idiom `self.temp['sequence'] if self.temp else 0`. -/
def tempSeq : Option TempUnit → Nat
  | some t => t.sequence
  | none => 0

/-- Append text lines to `temp['data']['lines']` (crash on `None`, as the
Python subscription would). -/
def appendLines (s : S) (ls : List (List Char)) : Op :=
  match s.temp with
  | some t =>
    ({ s with temp := some { t with data := { t.data with lines := t.data.lines ++ ls } } },
      none)
  | none => (s, some .crash)

/-- `validate_unit` (before `found_sequence`). -/
def validate_unit (stop : Option Level) (s : S) : Op :=
  let previous : Nat := tempSeq s.temp
  let sequence : Nat := parseIntStrip s.lb.current_line
  if (sequence : Int) - (previous : Int) ≠ 1 then
    let s1 := { s with paused := true }
    let s2 := setCurLine s1 (natRepr (previous + 1))
    withFetched s2 s2.lb.current_line_num fun orig =>
      opThen (addMsgS stop .warning (s2.lb.current_line_num + 1) 1 orig
          "Sequence number out of sync" s2)
        fun s3 => (s3, some .skip)
  else
    if s.state = .unit_text then
      match s.temp with
      | some t =>
        let t1 : TempUnit := { t with data := { t.data with lines := t.data.lines.dropLast } }
        ({ s with temp := some t1 }, none)
      | none => (s, some .crash)
    else (s, none)

/-- `create_unit` (after `found_sequence`). -/
def create_unit (s : S) : Op :=
  ({ s with parsedUnit := s.temp, temp := some ⟨parseIntStrip s.lb.current_line, emptyData⟩ },
    none)

/-- `parse_time` (after `found_header`, also called by `fix_sequence_skip`). -/
def parse_time (s : S) : Op :=
  match splitArrow s.lb.current_line with
  | [a, b] =>
    match timeMatch (pyStrip a), timeMatch (pyStrip b) with
    | some p1, some p2 =>
      match s.temp with
      | some t =>
        ({ s with temp := some { t with data :=
            { t.data with startSec := some (secondsOfParts p1),
                          endSec := some (secondsOfParts p2) } } }, none)
      | none => (s, some .crash)
    | _, _ => (s, some .crash)
  | _ => (s, some .crash)

/-- `fix_sequence_skip` (after `skip_sequence`). -/
def fix_sequence_skip (s : S) : Op :=
  let prev : Nat := tempSeq s.temp
  parse_time { s with parsedUnit := s.temp, temp := some ⟨prev + 1, emptyData⟩ }

/-- The `skip_sequence` event (`from [unit_text, start] to unit_text`; no
before callback, after callback `fix_sequence_skip`). -/
def fire_skip_sequence (s : S) : Op :=
  if s.state = .unit_text ∨ s.state = .start then
    fix_sequence_skip { s with state := .unit_text }
  else (s, some .invalidTrans)

/-- `validate_header` (before `found_header`). -/
def validate_header (stop : Option Level) (s : S) : Op :=
  if s.state = .unit_text then
    opThen (addMsgS stop .warning (s.lb.current_line_num + 1) 1 s.lb.current_line
        "Duplicated time information, ignoring." s)
      fun s1 => (s1, some .skip)
  else if s.state = .start then
    opThen (fire_skip_sequence s) fun s1 =>
      opThen (addMsgS stop .warning (s1.lb.current_line_num + 1) 1 s1.lb.current_line
          "New unit starts without a sequence." s1)
        fun s2 => (s2, some .skip)
  else if s.lb.current_line.contains '.' then
    let s1 := { s with paused := true }
    withFetched s1 s1.lb.current_line_num fun orig =>
      let col := idxOfChar '.' s1.lb.current_line
      let s2 := setCurLine s1 (replaceFirstChar '.' ',' s1.lb.current_line)
      opThen (addMsgS stop .warning (s2.lb.current_line_num + 1) ((col : Int) + 1) orig
          "Used dot as decimal separator instead of comma." s2)
        fun s3 => (s3, some .skip)
  else
    match matchHeader s.lb.current_line with
    | none => (s, some .crash)
    | some (g1, g2) =>
      if g2 ≠ [] then
        withFetched s s.lb.current_line_num fun orig =>
          let column := idxOfSub g2 s.lb.current_line + 1
          let s1 := { setCurLine s g1 with paused := true }
          opThen (addMsgS stop .warning (s1.lb.current_line_num + 1) (column : Int) orig
              "Header has unrecognized content at the end." s1)
            fun s2 => (s2, some .skip)
      else
        match splitArrow s.lb.current_line with
        | [a, b] =>
          match timeMatch (pyStrip a), timeMatch (pyStrip b) with
          | some _, some _ => (s, none)
          | _, _ =>
            withFetched s s.lb.current_line_num fun orig =>
              opThen (addMsgS stop .error (s.lb.current_line_num + 1) 1 orig
                  "Could not parse timings." s)
                fun s1 => (s1, some .skip)
        | _ => (s, some .crash)

/-- `validate_text` (before `found_text`). -/
def validate_text (stop : Option Level) (s : S) : Op :=
  if s.state = .start then
    match s.temp with
    | some _ => appendLines s [[]]
    | none =>
      opThen (addMsgS stop .warning (s.lb.current_line_num + 1) 1 s.lb.current_line
          "Junk before first unit." s)
        fun s1 => (s1, some .skip)
  else (s, none)

/-- `insert_text` (after `found_text`). -/
def insert_text (stop : Option Level) (s : S) : Op :=
  match matchTagged s.lb.current_line with
  | some (g0len, g1) =>
    let s1 := setCurLine s (s.lb.current_line.drop g0len)
    let posResult := tagPosSearch g1
    let step2 : Op :=
      match posResult with
      | some (_, dx, dy) =>
        match s1.temp with
        | some t =>
          (({ s1 with temp := some { t with data :=
              { t.data with position := some (natOfDigits dx, natOfDigits dy) } } } : S),
            none)
        | none => (s1, some .crash)
      | none => (s1, none)
    opThen step2 fun s2 =>
      let tagged : List Char :=
        match posResult with
        | some (m0, _, _) => removeFirstSub m0 g1
        | none => g1
      opThen (appendLines s2 ((splitChar '|' s2.lb.current_line).map rstrip)) fun s3 =>
        if tagged ≠ [] then
          withFetched s3 s3.lb.current_line_num fun orig =>
            opThen (addMsgS stop .warning (s3.lb.current_line_num + 1) 1 orig
                "Tagged header not fully parsed." s3)
              fun s4 => (s4, some .skip)
        else (s3, none)
  | none =>
    appendLines s ((splitChar '|' s.lb.current_line).map rstrip)

/-- `validate_empty` (before `found_empty`). -/
def validate_empty (stop : Option Level) (s : S) : Op :=
  if s.state = .start then
    match s.temp with
    | some _ => appendLines s [[]]
    | none =>
      withFetched s s.lb.current_line_num fun orig =>
        opThen (addMsgS stop .warning (s.lb.current_line_num + 1) 1 orig
            "Have empty line before first unit." s)
          fun s1 => (s1, some .skip)
  else if s.state = .unit then
    withFetched s s.lb.current_line_num fun orig =>
      opThen (addMsgS stop .warning (s.lb.current_line_num + 1) 1 orig
          "Have empty line between sequence number and timings." s)
        fun s1 => (s1, some .skip)
  else (s, none)

/-- The `found_sequence` event (`from [start] to unit`). -/
def fire_found_sequence (stop : Option Level) (s : S) : Op :=
  if s.state = .start then
    opThen (validate_unit stop s) fun s1 => create_unit { s1 with state := .unit }
  else (s, some .invalidTrans)

/-- The `found_header` event (`from [unit, unit_text, start] to unit_text`). -/
def fire_found_header (stop : Option Level) (s : S) : Op :=
  if s.state = .unit ∨ s.state = .unit_text ∨ s.state = .start then
    opThen (validate_header stop s) fun s1 => parse_time { s1 with state := .unit_text }
  else (s, some .invalidTrans)

/-- The `found_text` event (`from [unit_text, start] to unit_text`). -/
def fire_found_text (stop : Option Level) (s : S) : Op :=
  if s.state = .unit_text ∨ s.state = .start then
    opThen (validate_text stop s) fun s1 => insert_text stop { s1 with state := .unit_text }
  else (s, some .invalidTrans)

/-- The `found_empty` event (`from [unit_text, start, unit] to start`;
`insert_empty` is a no-op). -/
def fire_found_empty (stop : Option Level) (s : S) : Op :=
  if s.state = .unit_text ∨ s.state = .start ∨ s.state = .unit then
    opThen (validate_empty stop s) fun s1 => ({ s1 with state := .start }, none)
  else (s, some .invalidTrans)

/-- The `done` event (`from [unit, unit_text, start] to finished`; before:
set `_missing_line`, after: hand `temp` over and possibly warn). -/
def fire_done (stop : Option Level) (s : S) : Op :=
  if s.state = .unit ∨ s.state = .unit_text ∨ s.state = .start then
    let s1 := { s with missingLine := s.state ≠ .start, state := .finished }
    let s2 := { s1 with parsedUnit := s1.temp, temp := none }
    if s2.missingLine then
      withFetched s2 s2.lb.current_line_num fun orig =>
        opThen (addMsgS stop .warning (s2.lb.current_line_num + 1)
            (s2.lb.current_line.length : Int) orig "Missing empty line after unit." s2)
          fun s3 => (s3, some .skip)
    else (s2, none)
  else (s, some .invalidTrans)

/-- The line classification of `SubRipStateMachine.iterate` (blank, then
sequence when in `start`, then header, else text). -/
def classify (stop : Option Level) (s : S) : Op :=
  if pyStrip s.lb.current_line = [] then fire_found_empty stop s
  else if s.state = .start ∧ matchSequence s.lb.current_line then
    fire_found_sequence stop s
  else if (matchHeader s.lb.current_line).isSome then fire_found_header stop s
  else fire_found_text stop s

/-- `SubRipStateMachine.iterate`. -/
def iterate (doc : List (List Char)) (stop : Option Level) (s : S) : Op :=
  let p := s.paused
  let s := { s with paused := false }
  if p then classify stop s
  else
    match next_line doc s.lb with
    | none => fire_done stop s
    | some lb1 => classify stop { s with lb := lb1 }

/-- `machine.parsed()` (returns and clears `_parsed`). -/
def takeParsed (s : S) : Option TempUnit × S :=
  match s.parsedUnit with
  | none => (none, s)
  | some u => (some u, { s with parsedUnit := none })

inductive RunResult
  | finished (s : S) (units : List TempUnit)
  | aborted (s : S) (units : List TempUnit) (e : Exn)
  | outOfFuel (s : S) (units : List TempUnit)
deriving DecidableEq, Repr

/-- The `while True` loop of `SubRipParser._parse`, with the units it yields
accumulated in order. One fuel is one loop iteration. `Skip` is swallowed;
`InvalidStateTransition` records (or raises) the "Unparsable line" error;
raised `ParseWarning`/`ParseError` (and modelled crashes) abort. -/
def run (doc : List (List Char)) (stop : Option Level) :
    Nat → S → List TempUnit → RunResult
  | 0, s, acc => .outOfFuel s acc
  | fuel + 1, s, acc =>
    if s.state = .finished then
      let (u, s1) := takeParsed s
      .finished s1 (acc ++ u.toList)
    else
      match iterate doc stop s with
      | (s1, none) =>
        let (u, s2) := takeParsed s1
        let acc1 := acc ++ u.toList
        if s2.state = .finished then .finished s2 acc1
        else run doc stop fuel s2 acc1
      | (s1, some .skip) => run doc stop fuel s1 acc
      | (s1, some .invalidTrans) =>
        match addMsgS stop .error (s1.lb.current_line_num + 1) 1 s1.lb.current_line
            "Unparsable line" s1 with
        | (s2, none) => run doc stop fuel s2 acc
        | (s2, some e) => .aborted s2 acc e
      | (s1, some e) => .aborted s1 acc e

/-- Fuel that always suffices (see `subrip_terminates`): every loop
iteration either consumes an input line or is a bounded retry of the
current (rewritten) line. -/
def fuelFor (doc : List (List Char)) : Nat :=
  (doc.map (fun l => l.length + 3)).sum + doc.length + 8

/-- `SubRipParser._parse` on a decoded document, with the parser's
configured stop level (`'error'` is the constructor default). -/
def parseSubRip (doc : List (List Char)) (stop : Option Level) : RunResult :=
  run doc stop (fuelFor doc) initS []

def RunResult.units : RunResult → List TempUnit
  | .finished _ us => us
  | .aborted _ us _ => us
  | .outOfFuel _ us => us

def RunResult.finalS : RunResult → S
  | .finished s _ => s
  | .aborted s _ _ => s
  | .outOfFuel s _ => s

def RunResult.isFinished : RunResult → Bool
  | .finished _ _ => true
  | _ => false

def RunResult.isOutOfFuel : RunResult → Bool
  | .outOfFuel _ _ => true
  | _ => false

/-! ## Concrete documents and claim-side reference definitions -/

def strL (s : String) : List Char := s.toList

/-- The spec's four-line example `1 / 00:00:15,000 --> 00:00:30,000 / Hello /`
blank. -/
def docC2 : List (List Char) :=
  [strL "1", strL "00:00:15,000 --> 00:00:30,000", strL "Hello", strL ""]

/-- Four otherwise well-formed units whose sequence lines read 1, 2, 4, 5. -/
def docSeqGap : List (List Char) :=
  [strL "1", strL "00:00:01,000 --> 00:00:02,000", strL "A", strL "",
   strL "2", strL "00:00:03,000 --> 00:00:04,000", strL "B", strL "",
   strL "4", strL "00:00:05,000 --> 00:00:06,000", strL "C", strL "",
   strL "5", strL "00:00:07,000 --> 00:00:08,000", strL "D", strL ""]

/-- One unit whose timing line uses dots as decimal separators. -/
def docDot : List (List Char) :=
  [strL "1", strL "00:00:01.000 --> 00:00:02.000", strL "Hi", strL ""]

/-- The same unit with commas. -/
def docComma : List (List Char) :=
  [strL "1", strL "00:00:01,000 --> 00:00:02,000", strL "Hi", strL ""]

/-- A well-formed one-unit document whose text line contains a `|`. -/
def docPipe : List (List Char) :=
  [strL "1", strL "00:00:01,000 --> 00:00:02,000", strL "a|b", strL ""]

/-- The line buffer after reading one line of the one-line document `a`. -/
def lbAfterOne : LineBuffer := ⟨[strL "a"], 0, strL "a"⟩

/-- Stated by the claim about candidate priority: the first candidate in the
priority order (hint, then language-implied, then statistical guess) that
passes the decode test. -/
def firstDecodable (dec : String → List Nat → Bool) (data : List Nat)
    (cands : List Cand) : Option Cand :=
  cands.find? (fun c => dec c.enc data)

/-- A decode oracle under which exactly `windows-1250` and `koi8-r` decode. -/
def dec5 : String → List Nat → Bool :=
  fun e _ => e == "windows-1250" || e == "koi8-r"

def chardetNone : List Nat → Option (String × ℚ) := fun _ => none

/-- A decode oracle under which exactly `y` decodes. -/
def decY : String → List Nat → Bool := fun e _ => e == "y"

/-- A statistical-detector oracle that always guesses `y`. -/
def chardetY : List Nat → Option (String × ℚ) := fun _ => some ("y", 4 / 5)

/-- A decode oracle under which exactly `x` decodes. -/
def decX : String → List Nat → Bool := fun e _ => e == "x"

/-- `Parser._add_msg` raises iff a stop level is configured and reached. -/
def shouldStop (stop : Option Level) (level : Level) : Bool :=
  match stop with
  | some sl => levelsIndex sl ≤ levelsIndex level
  | none => false

/-! ## Well-formed documents (for the claim about round-tripping) -/

/-- A timing written as digit groups `d1:d2:d3,dms` (hours, minutes,
seconds, fraction); well-formedness per the `_time` regex. -/
def GoodTime (t : TimeParts) : Prop :=
  t.d1 ≠ [] ∧ t.d1.length ≤ 2 ∧ t.d1.all isAsciiDigit = true ∧
  t.d2 ≠ [] ∧ t.d2.length ≤ 2 ∧ t.d2.all isAsciiDigit = true ∧
  t.d3 ≠ [] ∧ t.d3.length ≤ 2 ∧ t.d3.all isAsciiDigit = true ∧
  t.dms ≠ [] ∧ t.dms.length ≤ 3 ∧ t.dms.all isAsciiDigit = true

instance (t : TimeParts) : Decidable (GoodTime t) := by
  unfold GoodTime; infer_instance

/-- A text line the parser hands through unchanged: non-empty, no trailing
whitespace, no `|` separator, not shaped like a timing header, not starting
with a `{...}` tag. -/
def GoodText (x : List Char) : Prop :=
  x ≠ [] ∧ rstrip x = x ∧ x.contains '|' = false ∧ matchHeader x = none ∧
    matchTagged x = none

instance (x : List Char) : Decidable (GoodText x) := by
  unfold GoodText; infer_instance

/-- One unit of a well-formed document. -/
structure USpec where
  startT : TimeParts
  endT : TimeParts
  texts : List (List Char)
deriving DecidableEq, Repr

def GoodUnit (u : USpec) : Prop :=
  u.texts ≠ [] ∧ (∀ x ∈ u.texts, GoodText x) ∧ GoodTime u.startT ∧ GoodTime u.endT

instance (u : USpec) : Decidable (GoodUnit u) := by
  unfold GoodUnit; infer_instance

/-- The timing rendered as `d1:d2:d3,dms`. -/
def renderTime (t : TimeParts) : List Char :=
  t.d1 ++ ':' :: (t.d2 ++ ':' :: (t.d3 ++ ',' :: t.dms))

/-- The timing header line `start --> end`. -/
def renderHeader (u : USpec) : List Char :=
  renderTime u.startT ++ ' ' :: '-' :: '-' :: '>' :: ' ' :: renderTime u.endT

/-- One rendered unit: sequence line, header line, text lines, blank line. -/
def renderUnit (i : Nat) (u : USpec) : List (List Char) :=
  natRepr (i + 1) :: renderHeader u :: (u.texts ++ [[]])

def renderFrom : Nat → List USpec → List (List Char)
  | _, [] => []
  | i, u :: rest => renderUnit i u ++ renderFrom (i + 1) rest

/-- The whole document: units numbered 1..N, each ended by one blank line. -/
def renderDoc (units : List USpec) : List (List Char) := renderFrom 0 units

/-- The seconds value written in a timing, as the claim reads it:
`hours * 3600 + minutes * 60 + seconds.fraction`. -/
def writtenSeconds (t : TimeParts) : ℚ :=
  (natOfDigits t.d1 : ℚ) * 3600 + (natOfDigits t.d2 : ℚ) * 60 +
    ((natOfDigits t.d3 : ℚ) + (natOfDigits t.dms : ℚ) / (10 : ℚ) ^ t.dms.length)

/-- The unit the parser is expected to produce for rendered unit `i`. -/
def expectedTemp (i : Nat) (u : USpec) : TempUnit :=
  ⟨i + 1, ⟨u.texts, some (secondsOfParts u.startT), some (secondsOfParts u.endT), none⟩⟩

/-- The expected parse of `renderFrom i units` (timings as written). -/
def expectedUnits : Nat → List USpec → List TempUnit
  | _, [] => []
  | i, u :: rest =>
    ⟨i + 1, ⟨u.texts, some (writtenSeconds u.startT), some (writtenSeconds u.endT), none⟩⟩ ::
      expectedUnits (i + 1) rest

/-- The combined state at a unit boundary (machine state `start`, nothing
pending but `temp`, not paused). -/
def mkS (lb : LineBuffer) (ws es : List Msg) (temp : Option TempUnit)
    (ml : Bool) : S :=
  ⟨lb, ws, es, .start, temp, none, false, ml⟩

/-- Mid-unit state (machine state `unit_text`, accumulating text). -/
def mkSUT (lb : LineBuffer) (ws es : List Msg) (t : TempUnit) (ml : Bool) : S :=
  ⟨lb, ws, es, .unit_text, some t, none, false, ml⟩

/-- Units yielded while processing a unit list from a boundary with pending
unit `temp`, together with the unit still pending afterwards. -/
def emittedFrom (temp : Option TempUnit) (i : Nat) :
    List USpec → List TempUnit × Option TempUnit
  | [] => ([], temp)
  | u :: rest =>
    let (ys, t) := emittedFrom (some (expectedTemp i u)) (i + 1) rest
    (temp.toList ++ ys, t)

/-- A concrete well-formed unit (`0:0:1,500 --> 0:0:2,0`, text `Hi`). -/
def uWitness : USpec :=
  ⟨⟨strL "0", strL "0", strL "1", strL "500"⟩,
   ⟨strL "0", strL "0", strL "2", strL "0"⟩, [strL "Hi"]⟩

/-! ## A termination measure for the `_parse` loop

Every loop iteration either consumes an input line or is a paused retry of
the current (rewritten) line, and each retry strictly shrinks the potential
of that line: a sequence resync or a garbage strip leaves a line that parses
cleanly, and a dot rewrite removes one dot. The measure charges each unread
line its dot count plus a constant, plus the potential of a pending retry. -/

/-- Number of `'.'` characters in a line. -/
def countDot (l : List Char) : Nat := l.count '.'

/-- Potential of a pending garbage strip: `1` when the line matches the
header pattern with trailing garbage. -/
def gFlag (l : List Char) : Nat :=
  match matchHeader l with
  | some (_, g2) => if g2 = [] then 0 else 1
  | none => 0

/-- Potential of a pending sequence resync: `1` when the line would take the
out-of-sync branch of `validate_unit`. -/
def seqPot (l : List Char) (temp : Option TempUnit) : Nat :=
  if matchSequence l = true ∧ (parseIntStrip l : Int) - (tempSeq temp : Int) ≠ 1
  then 1 else 0

/-- Potential of a paused retry of line `l` with `temp` in scope. -/
def compVal (l : List Char) (temp : Option TempUnit) : Nat :=
  1 + countDot l + gFlag l + seqPot l temp

def pausedComp (s : S) : Nat :=
  if s.paused then compVal s.lb.current_line s.temp else 0

def stateComp (s : S) : Nat := if s.state = .finished then 0 else 1

/-- Fuel charged for the still-unread lines. -/
def sumW (ls : List (List Char)) : Nat :=
  (ls.map (fun l => countDot l + 3)).sum

/-- The loop variant: strictly decreases on every iteration that continues
the loop. -/
def measureS (doc : List (List Char)) (s : S) : Nat :=
  sumW (doc.drop s.lb.read_lines.length) + pausedComp s + stateComp s

/-! ## Theorems -/

/-- `secondsOfParts` is exactly the value of the source's `convert` lambda:
`int(h) * 3600 + int(m) * 60 + float(s.ms)`. -/
theorem secondsOfParts_eq_formula (p : TimeParts) :
    secondsOfParts p =
      (natOfDigits p.d1 : ℚ) * 3600 + (natOfDigits p.d2 : ℚ) * 60 +
        ((natOfDigits p.d3 : ℚ) + (natOfDigits p.dms : ℚ) / (10 : ℚ) ^ p.dms.length) := by
  have h10 : ((10 : ℚ) ^ p.dms.length) ≠ 0 := by positivity
  rw [secondsOfParts, Rat.mkRat_eq_div]
  push_cast
  field_simp
  ring

/-! ### Character and scanning facts -/

theorem digitChar_digit {d : Nat} (h : d < 10) : isAsciiDigit (digitChar d) = true := by
  rcases d with _ | _ | _ | _ | _ | _ | _ | _ | _ | _ | n
  all_goals first
  | decide
  | omega

theorem digitChar_val {d : Nat} (h : d < 10) : (digitChar d).toNat - 48 = d := by
  rcases d with _ | _ | _ | _ | _ | _ | _ | _ | _ | _ | n
  all_goals first
  | decide
  | omega

theorem digit_not_pyspace {c : Char} (h : isAsciiDigit c = true) :
    isPySpace c = false := by
  by_contra hne
  have hsp : isPySpace c = true := by
    cases hx : isPySpace c
    · exact absurd hx hne
    · rfl
  simp only [isPySpace, Bool.or_eq_true, decide_eq_true_eq] at hsp
  rcases hsp with ((((rfl | rfl) | rfl) | rfl) | rfl) | rfl <;>
    exact absurd h (by decide)

theorem hdrClass_not_pyspace {c : Char} (h : isHdrClass c = true) :
    isPySpace c = false := by
  simp only [isHdrClass, Bool.or_eq_true, decide_eq_true_eq] at h
  rcases h with ((hd | rfl) | rfl) | rfl
  · exact digit_not_pyspace hd
  all_goals decide

theorem digit_isHdrClass {c : Char} (h : isAsciiDigit c = true) :
    isHdrClass c = true := by
  simp [isHdrClass, h]

theorem digit_ne_char {c : Char} (h : isAsciiDigit c = true) {a : Char}
    (ha : isAsciiDigit a = false) : c ≠ a := by
  rintro rfl
  rw [h] at ha
  exact Bool.noConfusion ha

theorem takeWhile_of_all {p : Char → Bool} :
    ∀ {l : List Char}, l.all p = true → l.takeWhile p = l
  | [], _ => rfl
  | c :: cs, h => by
    rw [List.all_cons, Bool.and_eq_true] at h
    simp [List.takeWhile_cons, h.1, takeWhile_of_all h.2]

theorem takeWhile_append_stop {p : Char → Bool} {b : Char} (r : List Char)
    (hb : p b = false) :
    ∀ {l : List Char}, l.all p = true → (l ++ b :: r).takeWhile p = l
  | [], _ => by simp [List.takeWhile_cons, hb]
  | c :: cs, h => by
    rw [List.all_cons, Bool.and_eq_true] at h
    simp [List.takeWhile_cons, h.1, takeWhile_append_stop r hb h.2]

theorem dropWhile_eq_self_of_head {p : Char → Bool} :
    ∀ {l : List Char}, (∀ c, l.head? = some c → p c = false) → l.dropWhile p = l
  | [], _ => rfl
  | c :: cs, h => by simp [List.dropWhile_cons, h c rfl]

theorem rstrip_eq_self_of_getLast {l : List Char}
    (h : ∀ c, l.getLast? = some c → isPySpace c = false) : rstrip l = l := by
  rw [rstrip]
  have hd : l.reverse.dropWhile isPySpace = l.reverse := by
    apply dropWhile_eq_self_of_head
    intro c hc
    exact h c (by rwa [List.head?_reverse] at hc)
  rw [hd, List.reverse_reverse]

theorem lstrip_eq_self_of_head {l : List Char}
    (h : ∀ c, l.head? = some c → isPySpace c = false) : lstrip l = l :=
  dropWhile_eq_self_of_head h

theorem getLast?_mem_list {l : List Char} {c : Char} (h : l.getLast? = some c) :
    c ∈ l := by
  rw [← List.head?_reverse] at h
  have : c ∈ l.reverse := by
    cases hl : l.reverse with
    | nil => rw [hl] at h; exact absurd h (by simp)
    | cons a t =>
      rw [hl] at h
      simp only [List.head?] at h
      injection h with h
      subst h
      exact .head _
  simpa using this

theorem head?_mem_list {l : List Char} {c : Char} (h : l.head? = some c) :
    c ∈ l := by
  cases l with
  | nil => exact absurd h (by simp)
  | cons a t =>
    simp only [List.head?] at h
    injection h with h
    subst h
    exact .head _

theorem all_getLast_digit {l : List Char} (hall : l.all isAsciiDigit = true) :
    ∀ c, l.getLast? = some c → isAsciiDigit c = true := by
  intro c hc
  exact (List.all_eq_true.mp hall) c (getLast?_mem_list hc)

theorem rstrip_of_all_digits {l : List Char} (h : l.all isAsciiDigit = true) :
    rstrip l = l :=
  rstrip_eq_self_of_getLast fun c hc =>
    digit_not_pyspace (all_getLast_digit h c hc)

theorem splitCharAux_no_sep {sep : Char} :
    ∀ {l : List Char} (acc : List Char), (∀ c ∈ l, c ≠ sep) →
      splitCharAux sep l acc = [acc.reverse ++ l]
  | [], acc, _ => by simp [splitCharAux]
  | c :: cs, acc, h => by
    have hc : ¬ c = sep := h c (.head _)
    rw [splitCharAux, if_neg hc, splitCharAux_no_sep (c :: acc)
      (fun x hx => h x (.tail _ hx))]
    simp

theorem splitChar_no_sep {sep : Char} {l : List Char} (h : ∀ c ∈ l, c ≠ sep) :
    splitChar sep l = [l] := by
  rw [splitChar, splitCharAux_no_sep [] h]
  rfl

theorem splitArrowAux_cons (c : Char) (rest cur : List Char) :
    splitArrowAux (c :: rest) cur =
      if c = '-' ∧ rest.take 2 = ['-', '>'] then
        (match rest with
         | _ :: _ :: rest2 => cur.reverse :: splitArrowAux rest2 []
         | _ => [cur.reverse])
      else splitArrowAux rest (c :: cur) := by
  rw [splitArrowAux.eq_def]

theorem splitArrowAux_skip :
    ∀ {l : List Char} (r acc : List Char), (∀ c ∈ l, c ≠ '-') →
      splitArrowAux (l ++ r) acc = splitArrowAux r (l.reverse ++ acc)
  | [], r, acc, _ => by simp
  | c :: cs, r, acc, h => by
    have hc : ¬ (c = '-' ∧ ((cs ++ r).take 2 = ['-', '>'])) := by
      rintro ⟨rfl, -⟩
      exact h '-' (.head _) rfl
    rw [List.cons_append, splitArrowAux_cons, if_neg hc,
      splitArrowAux_skip r (c :: acc) (fun x hx => h x (.tail _ hx))]
    simp

theorem splitArrowAux_arrow (tail acc : List Char) :
    splitArrowAux ('-' :: '-' :: '>' :: tail) acc =
      acc.reverse :: splitArrowAux tail [] := by
  rw [splitArrowAux_cons, if_pos ⟨rfl, rfl⟩]

theorem splitArrowAux_no_dash {l : List Char} (acc : List Char)
    (h : ∀ c ∈ l, c ≠ '-') : splitArrowAux l acc = [acc.reverse ++ l] := by
  have := splitArrowAux_skip (l := l) [] acc h
  rw [List.append_nil] at this
  rw [this, splitArrowAux]
  simp

theorem takeWhile_nil_of_head {p : Char → Bool} :
    ∀ {l : List Char}, (∀ c, l.head? = some c → p c = false) → l.takeWhile p = []
  | [], _ => rfl
  | c :: cs, h => by simp [List.takeWhile_cons, h c rfl]

theorem head?_append_left {l r : List Char} (h : l ≠ []) :
    (l ++ r).head? = l.head? := by
  cases l with
  | nil => exact absurd rfl h
  | cons a t => rfl

theorem rstrip_append_space (l : List Char) {c : Char} (h : isPySpace c = true) :
    rstrip (l ++ [c]) = rstrip l := by
  simp [rstrip, List.dropWhile_cons, h]

/-! ### Decimal representation (`str` of an `int`) -/

theorem natReprAux_succ (fuel n : Nat) (acc : List Char) :
    natReprAux (fuel + 1) n acc =
      if n = 0 then acc else natReprAux fuel (n / 10) (digitChar (n % 10) :: acc) :=
  rfl

theorem natReprAux_append :
    ∀ (fuel n : Nat) (acc : List Char),
      natReprAux fuel n acc = natReprAux fuel n [] ++ acc
  | 0, n, acc => rfl
  | fuel + 1, n, acc => by
    by_cases hn : n = 0
    · simp [natReprAux_succ, hn]
    · rw [natReprAux_succ, if_neg hn, natReprAux_succ, if_neg hn,
        natReprAux_append fuel (n / 10) (digitChar (n % 10) :: acc),
        natReprAux_append fuel (n / 10) [digitChar (n % 10)]]
      simp

theorem natRepr_pos {n : Nat} (hn : n ≠ 0) :
    natRepr n = natReprAux (n - 1) (n / 10) [] ++ [digitChar (n % 10)] := by
  rw [natRepr, if_neg hn]
  obtain ⟨m, rfl⟩ : ∃ m, n = m + 1 := ⟨n - 1, by omega⟩
  rw [natReprAux_succ, if_neg hn, natReprAux_append]
  simp

theorem natReprAux_all_digits :
    ∀ (fuel n : Nat), (natReprAux fuel n []).all isAsciiDigit = true
  | 0, _ => rfl
  | fuel + 1, n => by
    by_cases hn : n = 0
    · simp [natReprAux_succ, hn]
    · rw [natReprAux_succ, if_neg hn, natReprAux_append]
      rw [List.all_append, Bool.and_eq_true]
      refine ⟨natReprAux_all_digits fuel (n / 10), ?_⟩
      simp [digitChar_digit (Nat.mod_lt n (by omega))]

theorem natRepr_all_digits (n : Nat) : (natRepr n).all isAsciiDigit = true := by
  by_cases hn : n = 0
  · subst hn; decide
  · rw [natRepr, if_neg hn]; exact natReprAux_all_digits n n

theorem natRepr_ne_nil (n : Nat) : natRepr n ≠ [] := by
  by_cases hn : n = 0
  · subst hn; decide
  · rw [natRepr_pos hn]; simp

theorem rstrip_natRepr (n : Nat) : rstrip (natRepr n) = natRepr n :=
  rstrip_of_all_digits (natRepr_all_digits n)

theorem head_digit_not_space_of_all {l : List Char}
    (h : l.all isAsciiDigit = true) :
    ∀ c, l.head? = some c → isPySpace c = false := fun c hc =>
  digit_not_pyspace ((List.all_eq_true.mp h) c (head?_mem_list hc))

theorem lstrip_natRepr (n : Nat) : lstrip (natRepr n) = natRepr n :=
  lstrip_eq_self_of_head (head_digit_not_space_of_all (natRepr_all_digits n))

theorem pyStrip_natRepr (n : Nat) : pyStrip (natRepr n) = natRepr n := by
  rw [pyStrip, rstrip_natRepr, lstrip_natRepr]

theorem matchSequence_natRepr (n : Nat) : matchSequence (natRepr n) = true := by
  rw [matchSequence]
  have h1 : (natRepr n).dropWhile isPySpace = natRepr n :=
    dropWhile_eq_self_of_head (head_digit_not_space_of_all (natRepr_all_digits n))
  have h2 : (natRepr n).takeWhile isAsciiDigit = natRepr n :=
    takeWhile_of_all (natRepr_all_digits n)
  simp only [h1, h2, List.drop_length, List.all_nil, Bool.and_true]
  simp [natRepr_ne_nil n]

theorem natReprAux_foldl :
    ∀ (fuel n : Nat) (acc : List Char), n ≤ fuel →
      (natReprAux fuel n acc).foldl (fun a c => 10 * a + (c.toNat - 48)) 0 =
        acc.foldl (fun a c => 10 * a + (c.toNat - 48)) n
  | 0, n, acc, h => by
    have hn : n = 0 := by omega
    subst hn
    rfl
  | fuel + 1, n, acc, h => by
    by_cases hn : n = 0
    · subst hn; rw [natReprAux_succ, if_pos rfl]
    · rw [natReprAux_succ, if_neg hn]
      have hdiv : n / 10 ≤ fuel := by
        have := Nat.div_lt_self (by omega : 0 < n) (by omega : 1 < 10)
        omega
      rw [natReprAux_foldl fuel (n / 10) _ hdiv, List.foldl_cons,
        digitChar_val (Nat.mod_lt n (by omega))]
      congr 1
      omega

theorem natOfDigits_natRepr (n : Nat) : natOfDigits (natRepr n) = n := by
  by_cases hn : n = 0
  · subst hn; decide
  · rw [natRepr, if_neg hn, natOfDigits, natReprAux_foldl n n [] le_rfl]
    rfl

theorem parseIntStrip_natRepr (n : Nat) : parseIntStrip (natRepr n) = n := by
  rw [parseIntStrip, pyStrip_natRepr, takeWhile_of_all (natRepr_all_digits n),
    natOfDigits_natRepr]

/-! ### The rendered header line -/

theorem contains_eq_false_of_not_mem {l : List Char} {a : Char} (h : a ∉ l) :
    l.contains a = false := by
  cases hc : l.contains a with
  | false => rfl
  | true => exact absurd (List.elem_iff.mp hc) h

theorem takeShortNum_of_shape {d : List Char} (rest : List Char) {stop : Char}
    (hne : d ≠ []) (hlen : d.length ≤ 2) (hall : d.all isAsciiDigit = true)
    (hstop : isAsciiDigit stop = false) :
    takeShortNum stop (d ++ stop :: rest) = some (d, rest) := by
  simp only [takeShortNum, takeWhile_append_stop _ hstop hall, List.drop_left]
  rw [if_neg (by push_neg; exact ⟨hne, by omega⟩)]
  simp

theorem timeMatch_renderTime {t : TimeParts} (h : GoodTime t) :
    timeMatch (renderTime t) = some t := by
  obtain ⟨h1n, h1l, h1a, h2n, h2l, h2a, h3n, h3l, h3a, h4n, h4l, h4a⟩ := h
  rw [timeMatch, renderTime]
  rw [takeShortNum_of_shape _ h1n h1l h1a (by decide)]
  simp only [Option.bind_eq_bind, Option.some_bind]
  rw [takeShortNum_of_shape _ h2n h2l h2a (by decide)]
  simp only [Option.some_bind]
  rw [takeShortNum_of_shape _ h3n h3l h3a (by decide)]
  simp only [Option.some_bind]
  rw [takeWhile_of_all h4a, if_neg (by simpa using h4n),
    List.take_of_length_le h4l]

theorem all_digit_imp_hdr {l : List Char} (h : l.all isAsciiDigit = true) :
    l.all isHdrClass = true := by
  rw [List.all_eq_true] at h ⊢
  exact fun c hc => digit_isHdrClass (h c hc)

theorem renderTime_all_hdr {t : TimeParts} (h : GoodTime t) :
    (renderTime t).all isHdrClass = true := by
  obtain ⟨-, -, h1a, -, -, h2a, -, -, h3a, -, -, h4a⟩ := h
  have hco : isHdrClass ':' = true := by decide
  have hcm : isHdrClass ',' = true := by decide
  simp [renderTime, List.all_append, List.all_cons, all_digit_imp_hdr h1a,
    all_digit_imp_hdr h2a, all_digit_imp_hdr h3a, all_digit_imp_hdr h4a, hco, hcm]

theorem renderTime_ne_nil (t : TimeParts) : renderTime t ≠ [] := by
  simp [renderTime]

theorem renderTime_head_digit {t : TimeParts} (h : GoodTime t) :
    ∀ c, (renderTime t).head? = some c → isAsciiDigit c = true := by
  obtain ⟨h1n, -, h1a, -⟩ := h
  intro c hc
  rw [renderTime, head?_append_left h1n] at hc
  exact (List.all_eq_true.mp h1a) c (head?_mem_list hc)

theorem renderTime_getLast_digit {t : TimeParts} (h : GoodTime t) :
    ∀ c, (renderTime t).getLast? = some c → isAsciiDigit c = true := by
  obtain ⟨-, -, -, -, -, -, -, -, -, h4n, -, h4a⟩ := h
  intro c hc
  rw [renderTime, ← List.head?_reverse] at hc
  simp only [List.reverse_append, List.reverse_cons, List.append_assoc] at hc
  rw [head?_append_left (by simpa using h4n), List.head?_reverse] at hc
  exact all_getLast_digit h4a c hc

theorem renderTime_not_mem {t : TimeParts} (h : GoodTime t) {a : Char}
    (hdga : isAsciiDigit a = false) (hco : a ≠ ':') (hcm : a ≠ ',') :
    a ∉ renderTime t := by
  obtain ⟨-, -, h1a, -, -, h2a, -, -, h3a, -, -, h4a⟩ := h
  simp only [renderTime, List.mem_append, List.mem_cons]
  rintro (hm | rfl | hm | rfl | hm | rfl | hm)
  · exact digit_ne_char ((List.all_eq_true.mp h1a) a hm) hdga rfl
  · exact hco rfl
  · exact digit_ne_char ((List.all_eq_true.mp h2a) a hm) hdga rfl
  · exact hco rfl
  · exact digit_ne_char ((List.all_eq_true.mp h3a) a hm) hdga rfl
  · exact hcm rfl
  · exact digit_ne_char ((List.all_eq_true.mp h4a) a hm) hdga rfl

theorem renderTime_no_dash {t : TimeParts} (h : GoodTime t) :
    ∀ c ∈ renderTime t, c ≠ '-' := by
  intro c hc he
  subst he
  exact renderTime_not_mem h (a := '-') (by decide) (by decide) (by decide) hc

theorem renderHeader_getLast_digit {u : USpec} (h2 : GoodTime u.endT) :
    ∀ c, (renderHeader u).getLast? = some c → isAsciiDigit c = true := by
  intro c hc
  rw [renderHeader,
    List.getLast?_append_of_ne_nil _ (by simp)] at hc
  have h5 : (' ' :: '-' :: '-' :: '>' :: ' ' :: renderTime u.endT).getLast? =
      (renderTime u.endT).getLast? := by
    have hne := renderTime_ne_nil u.endT
    show ([' ', '-', '-', '>', ' '] ++ renderTime u.endT).getLast? = _
    exact List.getLast?_append_of_ne_nil _ hne
  rw [h5] at hc
  exact renderTime_getLast_digit h2 c hc

theorem renderHeader_rstrip {u : USpec} (h2 : GoodTime u.endT) :
    rstrip (renderHeader u) = renderHeader u :=
  rstrip_eq_self_of_getLast fun c hc =>
    digit_not_pyspace (renderHeader_getLast_digit h2 c hc)

theorem renderHeader_head_digit {u : USpec} (h1 : GoodTime u.startT) :
    ∀ c, (renderHeader u).head? = some c → isAsciiDigit c = true := by
  intro c hc
  rw [renderHeader, head?_append_left (renderTime_ne_nil u.startT)] at hc
  exact renderTime_head_digit h1 c hc

theorem renderHeader_pyStrip {u : USpec} (h1 : GoodTime u.startT)
    (h2 : GoodTime u.endT) : pyStrip (renderHeader u) = renderHeader u := by
  rw [pyStrip, renderHeader_rstrip h2]
  exact lstrip_eq_self_of_head fun c hc =>
    digit_not_pyspace (renderHeader_head_digit h1 c hc)

theorem renderHeader_ne_nil (u : USpec) : renderHeader u ≠ [] := by
  simp [renderHeader]

theorem renderHeader_no_dot {u : USpec} (h1 : GoodTime u.startT)
    (h2 : GoodTime u.endT) : (renderHeader u).contains '.' = false := by
  apply contains_eq_false_of_not_mem
  simp only [renderHeader, List.mem_append, List.mem_cons]
  rintro (hm | h | h | h | h | h | hm)
  · exact renderTime_not_mem h1 (a := '.') (by decide) (by decide) (by decide) hm
  · exact absurd h (by decide)
  · exact absurd h (by decide)
  · exact absurd h (by decide)
  · exact absurd h (by decide)
  · exact absurd h (by decide)
  · exact renderTime_not_mem h2 (a := '.') (by decide) (by decide) (by decide) hm

theorem splitArrow_renderHeader {u : USpec} (h1 : GoodTime u.startT)
    (h2 : GoodTime u.endT) :
    splitArrow (renderHeader u) =
      [renderTime u.startT ++ [' '], ' ' :: renderTime u.endT] := by
  rw [splitArrow, renderHeader,
    splitArrowAux_skip _ [] (renderTime_no_dash h1)]
  rw [splitArrowAux_cons, if_neg (by rintro ⟨h, -⟩; exact absurd h (by decide))]
  rw [splitArrowAux_arrow]
  rw [splitArrowAux_no_dash []
    (by
      intro c hc
      rcases List.mem_cons.mp hc with rfl | hm
      · decide
      · exact renderTime_no_dash h2 c hm)]
  simp

theorem pyStrip_left_part {t : TimeParts} (h : GoodTime t) :
    pyStrip (renderTime t ++ [' ']) = renderTime t := by
  rw [pyStrip, rstrip_append_space _ (by decide),
    rstrip_eq_self_of_getLast fun c hc =>
      digit_not_pyspace (renderTime_getLast_digit h c hc)]
  exact lstrip_eq_self_of_head fun c hc =>
    digit_not_pyspace (renderTime_head_digit h c hc)

theorem pyStrip_right_part {t : TimeParts} (h : GoodTime t) :
    pyStrip (' ' :: renderTime t) = renderTime t := by
  have hr : rstrip (' ' :: renderTime t) = ' ' :: renderTime t := by
    apply rstrip_eq_self_of_getLast
    intro c hc
    have : (renderTime t).getLast? = some c := by
      rwa [show (' ' :: renderTime t) = [' '] ++ renderTime t from rfl,
        List.getLast?_append_of_ne_nil _ (renderTime_ne_nil t)] at hc
    exact digit_not_pyspace (renderTime_getLast_digit h c this)
  rw [pyStrip, hr, lstrip]
  rw [List.dropWhile_cons, if_pos (by decide)]
  exact dropWhile_eq_self_of_head fun c hc =>
    digit_not_pyspace (renderTime_head_digit h c hc)

theorem matchHeader_renderHeader {u : USpec} (h1 : GoodTime u.startT)
    (h2 : GoodTime u.endT) :
    matchHeader (renderHeader u) = some (renderHeader u, []) := by
  have hdw : (renderHeader u).dropWhile isPySpace = renderHeader u :=
    dropWhile_eq_self_of_head fun c hc =>
      digit_not_pyspace (renderHeader_head_digit h1 c hc)
  have ht1 : (renderHeader u).takeWhile isHdrClass = renderTime u.startT := by
    rw [renderHeader]
    exact takeWhile_append_stop _ (by decide) (renderTime_all_hdr h1)
  have hr1 : (renderHeader u).drop (renderTime u.startT).length =
      ' ' :: '-' :: '-' :: '>' :: ' ' :: renderTime u.endT := by
    rw [renderHeader, List.drop_left]
  have hw1 : (' ' :: '-' :: '-' :: '>' :: ' ' :: renderTime u.endT).takeWhile
      isPySpace = [' '] := by
    rw [List.takeWhile_cons, if_pos (by decide : isPySpace ' ' = true),
      List.takeWhile_cons, if_neg (by decide : ¬ isPySpace '-' = true)]
  have hw2 : (renderTime u.endT).takeWhile isPySpace = [] :=
    takeWhile_nil_of_head fun c hc =>
      digit_not_pyspace (renderTime_head_digit h2 c hc)
  have hw2c : (' ' :: renderTime u.endT).takeWhile isPySpace = [' '] := by
    rw [List.takeWhile_cons, if_pos (by decide : isPySpace ' ' = true), hw2]
  have ht2 : (renderTime u.endT).takeWhile isHdrClass = renderTime u.endT :=
    takeWhile_of_all (renderTime_all_hdr h2)
  have hpre : (['-', '-', '>'].isPrefixOf
      ('-' :: '-' :: '>' :: ' ' :: renderTime u.endT)) = true := by
    simp [List.isPrefixOf]
  simp only [matchHeader, hdw, ht1, hr1]
  rw [if_neg (by simpa using renderTime_ne_nil u.startT)]
  simp only [hw1, List.length_cons, List.length_nil, List.drop_succ_cons,
    List.drop_zero, hpre, if_true, hw2c, ht2]
  rw [if_neg (by simpa using renderTime_ne_nil u.endT)]
  simp only [List.drop_length, List.takeWhile_nil, List.drop_nil]
  rw [renderHeader]
  simp

/-! ### Text lines and single-iteration evaluations -/

theorem not_mem_of_contains_eq_false {l : List Char} {a : Char}
    (h : l.contains a = false) : a ∉ l := by
  intro hm
  rw [show l.contains a = l.elem a from rfl, List.elem_iff.mpr hm] at h
  exact Bool.noConfusion h

theorem goodText_pyStrip_ne_nil {x : List Char} (h : GoodText x) :
    pyStrip x ≠ [] := by
  obtain ⟨hne, hr, -, -, -⟩ := h
  rw [pyStrip, hr]
  intro hx
  have hall : ∀ c ∈ x, isPySpace c = true := List.dropWhile_eq_nil_iff.mp hx
  have hrs : rstrip x = [] := by
    rw [rstrip, List.dropWhile_eq_nil_iff.mpr
      (fun a ha => hall a (by simpa using ha))]
    rfl
  rw [hr] at hrs
  exact hne hrs

theorem goodText_split {x : List Char} (h : GoodText x) :
    splitChar '|' x = [x] := by
  obtain ⟨-, -, hp, -, -⟩ := h
  refine splitChar_no_sep fun c hc he => ?_
  subst he
  exact not_mem_of_contains_eq_false hp hc

theorem iterate_text (doc : List (List Char)) (stop : Option Level)
    (lb : LineBuffer) (ws es : List Msg) (t : TempUnit) (ml : Bool)
    {x : List Char} (hx : GoodText x)
    (hdoc : doc[lb.read_lines.length]? = some x) :
    iterate doc stop (mkSUT lb ws es t ml) =
      (mkSUT ⟨lb.read_lines ++ [x], lb.current_line_num + 1, x⟩ ws es
        { t with data := { t.data with lines := t.data.lines ++ [x] } } ml,
        none) := by
  have hr : rstrip x = x := hx.2.1
  have hmh : matchHeader x = none := hx.2.2.2.1
  have hmt : matchTagged x = none := hx.2.2.2.2
  have hps := goodText_pyStrip_ne_nil hx
  have hsp := goodText_split hx
  simp only [iterate, classify, mkSUT, next_line, hdoc, hr]
  rw [if_neg hps]
  simp only [fire_found_text, validate_text, insert_text, opThen, appendLines,
    hmh, hmt, hsp, List.map_cons, List.map_nil, hr]
  simp [setCurLine, hmt, hsp, hr]

theorem iterate_seq (doc : List (List Char)) (stop : Option Level)
    (lb : LineBuffer) (ws es : List Msg) (temp : Option TempUnit) (ml : Bool)
    (i : Nat) (hseq : tempSeq temp = i)
    (hdoc : doc[lb.read_lines.length]? = some (natRepr (i + 1))) :
    iterate doc stop (mkS lb ws es temp ml) =
      (⟨⟨lb.read_lines ++ [natRepr (i + 1)], lb.current_line_num + 1,
          natRepr (i + 1)⟩, ws, es, .unit, some ⟨i + 1, emptyData⟩, temp,
        false, ml⟩, none) := by
  have hb : pyStrip (natRepr (i + 1)) ≠ [] := by
    rw [pyStrip_natRepr]
    exact natRepr_ne_nil (i + 1)
  have harith :
      ¬ ((parseIntStrip (natRepr (i + 1)) : Int) - (tempSeq temp : Int) ≠ 1) := by
    rw [parseIntStrip_natRepr, hseq]
    push_cast
    omega
  simp [iterate, classify, mkS, next_line, hdoc, rstrip_natRepr, hb,
    matchSequence_natRepr, fire_found_sequence, validate_unit, harith,
    create_unit, opThen, setCurLine, parseIntStrip_natRepr, hseq,
    add_sub_cancel_left]

theorem iterate_header (doc : List (List Char)) (stop : Option Level)
    (lb : LineBuffer) (ws es : List Msg) (t : TempUnit) (ml : Bool)
    (u : USpec) (h1 : GoodTime u.startT) (h2 : GoodTime u.endT)
    (hdoc : doc[lb.read_lines.length]? = some (renderHeader u)) :
    iterate doc stop (⟨lb, ws, es, .unit, some t, none, false, ml⟩ : S) =
      (⟨⟨lb.read_lines ++ [renderHeader u], lb.current_line_num + 1,
          renderHeader u⟩, ws, es, .unit_text,
        some { t with data := { t.data with
          startSec := some (secondsOfParts u.startT),
          endSec := some (secondsOfParts u.endT) } }, none, false, ml⟩,
        none) := by
  have hne : pyStrip (renderHeader u) ≠ [] := by
    rw [renderHeader_pyStrip h1 h2]
    exact renderHeader_ne_nil u
  simp only [iterate, classify, next_line, hdoc, renderHeader_rstrip h2]
  rw [if_neg hne]
  simp only [matchHeader_renderHeader h1 h2, Option.isSome_some, if_true]
  simp only [fire_found_header, validate_header, opThen, parse_time,
    renderHeader_no_dot h1 h2, matchHeader_renderHeader h1 h2,
    splitArrow_renderHeader h1 h2, pyStrip_left_part h1, pyStrip_right_part h2,
    timeMatch_renderTime h1, timeMatch_renderTime h2]
  simp [splitArrow_renderHeader h1 h2, pyStrip_left_part h1,
    pyStrip_right_part h2, timeMatch_renderTime h1, timeMatch_renderTime h2,
    setCurLine]

theorem iterate_blank (doc : List (List Char)) (stop : Option Level)
    (lb : LineBuffer) (ws es : List Msg) (t : TempUnit) (ml : Bool)
    (hdoc : doc[lb.read_lines.length]? = some []) :
    iterate doc stop (mkSUT lb ws es t ml) =
      (mkS ⟨lb.read_lines ++ [[]], lb.current_line_num + 1, []⟩ ws es
        (some t) ml, none) := by
  simp only [iterate, classify, mkSUT, next_line, hdoc, mkS]
  simp [fire_found_empty, validate_empty, opThen, rstrip, pyStrip, lstrip]

theorem iterate_eof (doc : List (List Char)) (stop : Option Level)
    (lb : LineBuffer) (ws es : List Msg) (temp : Option TempUnit) (ml : Bool)
    (hdoc : doc[lb.read_lines.length]? = none) :
    iterate doc stop (mkS lb ws es temp ml) =
      (⟨lb, ws, es, .finished, none, temp, false, false⟩, none) := by
  simp only [iterate, classify, mkS, next_line, hdoc]
  simp [fire_done]

/-! ### Stepping the `_parse` loop -/

theorem drop_cons_of_drop {α : Type} {l : List α} {n : Nat} {x : α}
    {xs : List α} (h : l.drop n = x :: xs) :
    l[n]? = some x ∧ l.drop (n + 1) = xs := by
  constructor
  · have h0 : (l.drop n)[0]? = l[n + 0]? := List.getElem?_drop l n 0
    rw [h] at h0
    simpa using h0.symm
  · have h2 : (l.drop n).drop 1 = l.drop (n + 1) := by
      rw [List.drop_drop]
    rw [← h2, h]
    rfl

theorem run_succ (doc : List (List Char)) (stop : Option Level) (fuel : Nat)
    (s : S) (acc : List TempUnit) :
    run doc stop (fuel + 1) s acc =
      if s.state = .finished then
        let p := takeParsed s
        .finished p.2 (acc ++ p.1.toList)
      else
        match iterate doc stop s with
        | (s1, none) =>
          let p := takeParsed s1
          let acc1 := acc ++ p.1.toList
          if p.2.state = .finished then .finished p.2 acc1
          else run doc stop fuel p.2 acc1
        | (s1, some .skip) => run doc stop fuel s1 acc
        | (s1, some .invalidTrans) =>
          match addMsgS stop .error (s1.lb.current_line_num + 1) 1
              s1.lb.current_line "Unparsable line" s1 with
          | (s2, none) => run doc stop fuel s2 acc
          | (s2, some e) => .aborted s2 acc e
        | (s1, some e) => .aborted s1 acc e := by
  rw [run]

theorem run_step (doc : List (List Char)) (stop : Option Level) (fuel : Nat)
    {s s1 : S} (acc : List TempUnit) (hs : s.state ≠ .finished)
    (hit : iterate doc stop s = (s1, none)) (h1 : s1.state ≠ .finished) :
    run doc stop (fuel + 1) s acc =
      run doc stop fuel { s1 with parsedUnit := none }
        (acc ++ s1.parsedUnit.toList) := by
  rw [run_succ, if_neg hs, hit]
  cases hpu : s1.parsedUnit with
  | none =>
    have hs1 : ({ s1 with parsedUnit := none } : S) = s1 := by
      obtain ⟨a, b, c, d, e, pu, g, h⟩ := s1
      simp only at hpu
      rw [hpu]
    rw [hs1]
    simp only [takeParsed, hpu]
    simp [h1]
  | some w =>
    simp only [takeParsed, hpu]
    have hst : ({ s1 with parsedUnit := none } : S).state = s1.state := rfl
    simp [hst, h1]

theorem run_finish (doc : List (List Char)) (stop : Option Level) (fuel : Nat)
    (lb : LineBuffer) (ws es : List Msg) (temp : Option TempUnit) (ml : Bool)
    (acc : List TempUnit)
    (hdoc : doc[lb.read_lines.length]? = none) :
    run doc stop (fuel + 1) (mkS lb ws es temp ml) acc =
      .finished ⟨lb, ws, es, .finished, none, none, false, false⟩
        (acc ++ temp.toList) := by
  rw [run_succ, if_neg (by simp [mkS]), iterate_eof doc stop lb ws es temp ml hdoc]
  cases temp with
  | none => simp [takeParsed]
  | some t => simp [takeParsed]

theorem run_texts (doc : List (List Char)) (stop : Option Level)
    (rest3 : List (List Char)) :
    ∀ (ts : List (List Char)) (fuel : Nat) (lb : LineBuffer) (ws es : List Msg)
      (t : TempUnit) (ml : Bool) (acc : List TempUnit),
      (∀ x ∈ ts, GoodText x) →
      doc.drop lb.read_lines.length = ts ++ rest3 →
      ∃ lb2 : LineBuffer,
        doc.drop lb2.read_lines.length = rest3 ∧
        run doc stop (ts.length + fuel) (mkSUT lb ws es t ml) acc =
          run doc stop fuel
            (mkSUT lb2 ws es
              { t with data := { t.data with lines := t.data.lines ++ ts } } ml)
            acc := by
  intro ts
  induction ts with
  | nil =>
    intro fuel lb ws es t ml acc _ hdoc
    refine ⟨lb, by simpa using hdoc, ?_⟩
    obtain ⟨seq, ls, ss, se, pos⟩ := t
    simp
  | cons x xs ih =>
    intro fuel lb ws es t ml acc hgood hdoc
    obtain ⟨hd1, hdoc1⟩ := drop_cons_of_drop (by simpa using hdoc)
    have hlen : (x :: xs).length + fuel = (xs.length + fuel) + 1 := by
      simp only [List.length_cons]
      omega
    rw [hlen]
    rw [run_step doc stop (xs.length + fuel) acc (by simp [mkSUT])
      (iterate_text doc stop lb ws es t ml (hgood x (.head _)) hd1)
      (by simp [mkSUT])]
    have hdoc1' : doc.drop
        ((⟨lb.read_lines ++ [x], lb.current_line_num + 1, x⟩ : LineBuffer)).read_lines.length =
        xs ++ rest3 := by
      simpa [List.length_append] using hdoc1
    obtain ⟨lb2, hlb2, hrun⟩ := ih fuel
      ⟨lb.read_lines ++ [x], lb.current_line_num + 1, x⟩ ws es
      { t with data := { t.data with lines := t.data.lines ++ [x] } } ml acc
      (fun y hy => hgood y (.tail _ hy)) hdoc1'
    refine ⟨lb2, hlb2, ?_⟩
    simp only [mkSUT] at hrun ⊢
    simp only [Option.toList_none, List.append_nil]
    rw [hrun]
    simp [List.append_assoc]

theorem run_one_unit (doc : List (List Char)) (stop : Option Level)
    (rest2 : List (List Char)) (u : USpec) (hg : GoodUnit u) (i fuel : Nat)
    (lb : LineBuffer) (ws es : List Msg) (temp : Option TempUnit) (ml : Bool)
    (acc : List TempUnit) (hseq : tempSeq temp = i)
    (hdoc : doc.drop lb.read_lines.length = renderUnit i u ++ rest2) :
    ∃ lb2, doc.drop lb2.read_lines.length = rest2 ∧
      run doc stop ((renderUnit i u).length + fuel) (mkS lb ws es temp ml) acc =
        run doc stop fuel (mkS lb2 ws es (some (expectedTemp i u)) ml)
          (acc ++ temp.toList) := by
  obtain ⟨htne, htg, hg1, hg2⟩ := hg
  have hdoc0 : doc.drop lb.read_lines.length =
      natRepr (i + 1) :: (renderHeader u :: (u.texts ++ ([] :: rest2))) := by
    simpa [renderUnit, List.append_assoc] using hdoc
  obtain ⟨hd1, hdocA⟩ := drop_cons_of_drop hdoc0
  obtain ⟨hd2, hdocB⟩ := drop_cons_of_drop hdocA
  have hlen : (renderUnit i u).length + fuel =
      ((u.texts.length + (fuel + 1)) + 1) + 1 := by
    simp [renderUnit]
    omega
  rw [hlen]
  rw [run_step doc stop _ acc (by simp [mkS])
    (iterate_seq doc stop lb ws es temp ml i hseq hd1) (by simp)]
  dsimp only
  have hd2' : doc[(⟨lb.read_lines ++ [natRepr (i + 1)],
      lb.current_line_num + 1, natRepr (i + 1)⟩ : LineBuffer).read_lines.length]? =
      some (renderHeader u) := by
    simpa [List.length_append] using hd2
  rw [run_step doc stop _ _ (by simp)
    (iterate_header doc stop _ ws es ⟨i + 1, emptyData⟩ ml u hg1 hg2 hd2')
    (by simp)]
  dsimp only
  simp only [Option.toList_none, List.append_nil, emptyData]
  have hdocB' : doc.drop
      ((⟨(lb.read_lines ++ [natRepr (i + 1)]) ++ [renderHeader u],
        lb.current_line_num + 1 + 1, renderHeader u⟩ : LineBuffer)).read_lines.length =
      u.texts ++ ([] :: rest2) := by
    simpa [List.length_append] using hdocB
  obtain ⟨lb3, hlb3, hrun3⟩ := run_texts doc stop ([] :: rest2) u.texts (fuel + 1)
    ⟨(lb.read_lines ++ [natRepr (i + 1)]) ++ [renderHeader u],
      lb.current_line_num + 1 + 1, renderHeader u⟩ ws es
    ⟨i + 1, ⟨[], some (secondsOfParts u.startT), some (secondsOfParts u.endT), none⟩⟩
    ml (acc ++ temp.toList) htg hdocB'
  simp only [mkSUT] at hrun3
  rw [hrun3]
  obtain ⟨hd4, hdocC⟩ := drop_cons_of_drop hlb3
  have hblank := iterate_blank doc stop lb3 ws es
    ⟨i + 1, ⟨[] ++ u.texts, some (secondsOfParts u.startT),
      some (secondsOfParts u.endT), none⟩⟩ ml hd4
  simp only [mkSUT, mkS] at hblank
  rw [run_step doc stop fuel _ (by simp) hblank (by simp)]
  dsimp only
  refine ⟨⟨lb3.read_lines ++ [[]], lb3.current_line_num + 1, []⟩,
    by simpa [List.length_append] using hdocC, ?_⟩
  simp [expectedTemp, mkS]

theorem run_units (doc : List (List Char)) (stop : Option Level)
    (restDoc : List (List Char)) :
    ∀ (us : List USpec) (i fuel : Nat) (lb : LineBuffer) (ws es : List Msg)
      (temp : Option TempUnit) (ml : Bool) (acc : List TempUnit),
      (∀ u ∈ us, GoodUnit u) → tempSeq temp = i →
      doc.drop lb.read_lines.length = renderFrom i us ++ restDoc →
      ∃ lb2, doc.drop lb2.read_lines.length = restDoc ∧
        run doc stop ((renderFrom i us).length + fuel) (mkS lb ws es temp ml)
            acc =
          run doc stop fuel (mkS lb2 ws es (emittedFrom temp i us).2 ml)
            (acc ++ (emittedFrom temp i us).1) := by
  intro us
  induction us with
  | nil =>
    intro i fuel lb ws es temp ml acc _ _ hdoc
    exact ⟨lb, by simpa [renderFrom] using hdoc,
      by simp [renderFrom, emittedFrom]⟩
  | cons u us ih =>
    intro i fuel lb ws es temp ml acc hg hseq hdoc
    have hdoc1 : doc.drop lb.read_lines.length =
        renderUnit i u ++ (renderFrom (i + 1) us ++ restDoc) := by
      simpa [renderFrom, List.append_assoc] using hdoc
    have hlen : (renderFrom i (u :: us)).length + fuel =
        (renderUnit i u).length + ((renderFrom (i + 1) us).length + fuel) := by
      simp [renderFrom]
      omega
    rw [hlen]
    obtain ⟨lbm, hlbm, hrun1⟩ := run_one_unit doc stop
      (renderFrom (i + 1) us ++ restDoc) u (hg u (.head _)) i
      ((renderFrom (i + 1) us).length + fuel) lb ws es temp ml acc hseq hdoc1
    rw [hrun1]
    obtain ⟨lb2, hlb2, hrun2⟩ := ih (i + 1) fuel lbm ws es
      (some (expectedTemp i u)) ml (acc ++ temp.toList)
      (fun x hx => hg x (.tail _ hx)) (by simp [tempSeq, expectedTemp]) hlbm
    rw [hrun2]
    refine ⟨lb2, hlb2, ?_⟩
    simp [emittedFrom, List.append_assoc]

theorem writtenSeconds_eq (t : TimeParts) :
    writtenSeconds t = secondsOfParts t :=
  (secondsOfParts_eq_formula t).symm

theorem emittedFrom_flatten :
    ∀ (us : List USpec) (temp : Option TempUnit) (i : Nat),
      (emittedFrom temp i us).1 ++ (emittedFrom temp i us).2.toList =
        temp.toList ++ expectedUnits i us := by
  intro us
  induction us with
  | nil => intro temp i; simp [emittedFrom, expectedUnits]
  | cons u us ih =>
    intro temp i
    have ih1 := ih (some (expectedTemp i u)) (i + 1)
    rcases hE : emittedFrom (some (expectedTemp i u)) (i + 1) us with ⟨ys, t2⟩
    rw [hE] at ih1
    simp only [emittedFrom, hE]
    simp only [Option.toList_some] at ih1
    rw [List.append_assoc, ih1]
    simp [expectedUnits, expectedTemp, writtenSeconds_eq]

/-- C1 (amended): for every document of N units rendered as a sequence line
(1..N in order), a valid comma-decimal timing header, one or more text lines
— each non-empty, without trailing whitespace, containing no `|`, not
matching the timing-header pattern and not starting with a `{...}` tag —
and one blank line after each unit, `SubRipParser._parse` yields exactly the
N units in input order, with the text lines unchanged and start/end seconds
equal to the values written in the headers, and no diagnostics. (As stated,
with arbitrary non-blank text lines, the claim fails: see the
counterexample, where a `|` splits a text line.) -/
theorem well_formed_doc_roundtrip (units : List USpec) (stop : Option Level)
    (hgood : ∀ u ∈ units, GoodUnit u) :
    (parseSubRip (renderDoc units) stop).units = expectedUnits 0 units ∧
    (parseSubRip (renderDoc units) stop).isFinished = true ∧
    (parseSubRip (renderDoc units) stop).finalS.warnings = [] ∧
    (parseSubRip (renderDoc units) stop).finalS.errors = [] := by
  obtain ⟨R, hR⟩ : ∃ R, fuelFor (renderDoc units) =
      (renderFrom 0 units).length + (R + 1) := by
    refine ⟨((renderDoc units).map (fun l => l.length + 3)).sum + 7, ?_⟩
    simp only [fuelFor, renderDoc]
    omega
  have hdoc0 : (renderDoc units).drop (LineBuffer.init.read_lines.length) =
      renderFrom 0 units ++ [] := by
    simp [LineBuffer.init, renderDoc]
  obtain ⟨lb2, hlb2, hrun⟩ := run_units (renderDoc units) stop [] units 0 (R + 1)
    LineBuffer.init [] [] none false [] hgood rfl hdoc0
  have hnone : (renderDoc units)[lb2.read_lines.length]? = none :=
    List.getElem?_eq_none (List.drop_eq_nil_iff.mp hlb2)
  have hinit : initS = mkS LineBuffer.init [] [] none false := rfl
  have heq : parseSubRip (renderDoc units) stop =
      .finished ⟨lb2, [], [], .finished, none, none, false, false⟩
        (([] ++ (emittedFrom none 0 units).1) ++
          (emittedFrom none 0 units).2.toList) := by
    rw [parseSubRip, hR, hinit, hrun,
      run_finish _ _ R lb2 [] [] _ false _ hnone]
  rw [heq]
  have hflat := emittedFrom_flatten units none 0
  simp only [Option.toList_none, List.nil_append] at hflat
  simp [RunResult.units, RunResult.isFinished, RunResult.finalS, hflat]

/-- C1 amended witness: a concrete one-unit well-formed document. -/
theorem well_formed_doc_roundtrip_witness :
    (∀ u ∈ [uWitness], GoodUnit u) ∧
    (parseSubRip (renderDoc [uWitness]) (some .error)).units =
      expectedUnits 0 [uWitness] := by
  refine ⟨by decide, ?_⟩
  exact (well_formed_doc_roundtrip [uWitness] (some .error) (by decide)).1

theorem isPrefixOf_take_eight {p data : List Nat} (hlen : p.length ≤ 8)
    (h : p.isPrefixOf data = true) : p.isPrefixOf (data.take 8) = true := by
  rw [List.isPrefixOf_iff_prefix] at h ⊢
  obtain ⟨t, rfl⟩ := h
  rw [List.take_append_eq_append_take, List.take_of_length_le hlen]
  exact ⟨t.take (8 - p.length), rfl⟩

theorem utf8_not_prefix_of_utf16 {data : List Nat}
    (h : BOM_UTF16.isPrefixOf data = true) :
    BOM_UTF8.isPrefixOf (data.take 8) = false := by
  rw [List.isPrefixOf_iff_prefix] at h
  obtain ⟨t, rfl⟩ := h
  simp [BOM_UTF8, BOM_UTF16, List.isPrefixOf]

/-- C4: a UTF-8 BOM at the head of the buffer makes `detect` return
`('utf-8-sig', None)` immediately, for every encoding hint, language hint,
decode oracle and statistical detector (none of which are consulted), and a
UTF-16 BOM likewise short-circuits to `('utf16', None)`; in both cases the
stream is left at offset 0. -/
theorem bom_short_circuit (dec : String → List Nat → Bool)
    (chardet : List Nat → Option (String × ℚ)) (data : List Nat)
    (encoding language : Option String) :
    (BOM_UTF8.isPrefixOf data = true →
      detect dec chardet ⟨data, 0⟩ encoding language =
        (.ok "utf-8-sig" none, ⟨data, 0⟩)) ∧
    (BOM_UTF16.isPrefixOf data = true →
      detect dec chardet ⟨data, 0⟩ encoding language =
        (.ok "utf16" none, ⟨data, 0⟩)) := by
  constructor
  · intro h8
    have h8t := isPrefixOf_take_eight (by decide) h8
    simp [detect, bsRead, bsSeek0, h8t]
  · intro h16
    have h16t := isPrefixOf_take_eight (by decide) h16
    have h8f := utf8_not_prefix_of_utf16 h16
    simp [detect, bsRead, bsSeek0, h8f, h16t]

/-- C4 witness: a concrete BOM-prefixed buffer with a conflicting hint. -/
theorem bom_short_circuit_witness :
    BOM_UTF8.isPrefixOf [239, 187, 191, 7] = true ∧
    detect decX chardetY ⟨[239, 187, 191, 7], 0⟩ (some "x") (some "ru") =
      (.ok "utf-8-sig" none, ⟨[239, 187, 191, 7], 0⟩) :=
  ⟨by decide,
    (bom_short_circuit decX chardetY [239, 187, 191, 7] (some "x") (some "ru")).1
      (by decide)⟩

theorem detectLoop_ok_decodes (dec : String → List Nat → Bool) (data : List Nat) :
    ∀ (fuel : Nat) (stack : List Cand) (tried : List String) (enc : String)
      (conf : Option ℚ) (st1 : ByteStream),
      detectLoop dec fuel ⟨data, 0⟩ stack tried = (.ok enc conf, st1) →
      dec enc data = true ∧ st1 = ⟨data, 0⟩ := by
  intro fuel
  induction fuel with
  | zero =>
    intro stack tried enc conf st1 h
    simp [detectLoop] at h
  | succ fuel ih =>
    intro stack tried enc conf st1 h
    rw [detectLoop] at h
    cases hl : stack.getLast? with
    | none => rw [hl] at h; exact absurd h (by simp)
    | some cand =>
      rw [hl] at h
      simp only [can_decode, bsSeek0, List.drop_zero] at h
      by_cases hdec : dec cand.enc data
      · rw [if_pos hdec] at h
        cases cand with
        | plain e =>
          simp only [Cand.enc] at hdec
          rw [Prod.mk.injEq] at h
          obtain ⟨h1, h2⟩ := h
          injection h1 with he hc
          subst he
          exact ⟨hdec, h2.symm⟩
        | guessed e c =>
          simp only [Cand.enc] at hdec
          rw [Prod.mk.injEq] at h
          obtain ⟨h1, h2⟩ := h
          injection h1 with he hc
          subst he
          exact ⟨hdec, h2.symm⟩
      · rw [if_neg hdec] at h
        by_cases hs : (if similar_encodings cand.enc ≠ [] then
            stack.dropLast ++ (List.map Cand.plain
              ((similar_encodings cand.enc).filter
                (fun e => ¬ (addTried tried cand.enc).contains e)))
            else stack.dropLast) = []
        · rw [if_pos hs] at h
          exact absurd h (by simp)
        · rw [if_neg hs] at h
          exact ih _ _ _ _ _ h

/-- C10: whenever `detect` returns normally on a BOM-less buffer, the
returned encoding passes the full decode test (decoding the entire buffer
raises neither `UnicodeDecodeError` nor `LookupError` and the decoded text
has no U+009E indicator character — this is what the `dec` oracle asserts),
and the stream position is back at offset 0. -/
theorem detect_result_decodes (dec : String → List Nat → Bool)
    (chardet : List Nat → Option (String × ℚ)) (data : List Nat)
    (encoding language : Option String) (enc : String) (conf : Option ℚ)
    (st1 : ByteStream)
    (hno8 : BOM_UTF8.isPrefixOf (data.take 8) = false)
    (hno16 : BOM_UTF16.isPrefixOf (data.take 8) = false)
    (hok : detect dec chardet ⟨data, 0⟩ encoding language = (.ok enc conf, st1)) :
    dec enc data = true ∧ st1 = ⟨data, 0⟩ := by
  rw [detect] at hok
  simp only [bsRead, bsSeek0, List.drop_zero, hno8, hno16, Bool.false_eq_true,
    if_false] at hok
  by_cases hc : candsOf encoding language (chardet data) = []
  · rw [if_pos hc] at hok
    exact absurd hok (by simp)
  · rw [if_neg hc] at hok
    exact detectLoop_ok_decodes dec data _ _ _ _ _ _ hok

/-- C10 witness. -/
theorem detect_result_decodes_witness :
    BOM_UTF8.isPrefixOf (([5] : List Nat).take 8) = false ∧
    BOM_UTF16.isPrefixOf (([5] : List Nat).take 8) = false ∧
    decX "x" [5] = true ∧ (⟨[5], 0⟩ : ByteStream) = ⟨[5], 0⟩ :=
  ⟨by decide, by decide,
    detect_result_decodes decX chardetNone [5] (some "x") none "x" none ⟨[5], 0⟩
      (by decide) (by decide) (by decide)⟩

/-- C5 counterexample: with hint `ISO-8859-2` (which fails to decode but has
`windows-1250` in the similarity table) and language `ru` (whose implied
`koi8-r` does decode), `detect` returns the injected similar encoding
`windows-1250` instead of `koi8-r`, the first candidate in the claimed
priority order that decodes. -/
theorem priority_order_counterexample :
    detect dec5 chardetNone ⟨[1], 0⟩ (some "ISO-8859-2") (some "ru") =
      (.ok "windows-1250" none, ⟨[1], 0⟩) ∧
    firstDecodable dec5 [1]
        (candsOf (some "ISO-8859-2") (some "ru") (chardetNone [1])) =
      some (.plain "koi8-r") ∧
    ("windows-1250" : String) ≠ "koi8-r" := by
  refine ⟨by decide, by decide, by decide⟩

theorem detectLoop_no_similar (dec : String → List Nat → Bool) (data : List Nat) :
    ∀ (cands : List Cand) (fuel : Nat) (tried : List String), cands ≠ [] →
      (∀ c ∈ cands, similar_encodings c.enc = []) → cands.length < fuel →
      detectLoop dec fuel ⟨data, 0⟩ cands.reverse tried =
        (match firstDecodable dec data cands with
         | some c => DetectResult.ok c.enc c.conf
         | none =>
           DetectResult.encodingError "Could not detect proper encoding"
             (cands.foldl (fun t c => addTried t c.enc) tried),
         ⟨data, 0⟩) := by
  intro cands
  induction cands with
  | nil => intro fuel tried hne; exact absurd rfl hne
  | cons c rest ih =>
    intro fuel tried _ hsim hfuel
    match fuel, hfuel with
    | fuel + 1, hf =>
      rw [detectLoop, List.reverse_cons, List.getLast?_concat]
      simp only [can_decode, bsSeek0, List.drop_zero, List.dropLast_concat]
      by_cases hdec : dec c.enc data
      · simp only [if_pos hdec, firstDecodable, List.find?, hdec]
        cases c <;> rfl
      · have hdecf : dec c.enc data = false := by simpa using hdec
        have hsimc : similar_encodings c.enc = [] := hsim c (by simp)
        simp only [if_neg hdec, firstDecodable, List.find?, hdecf, hsimc, ne_eq,
          not_true_eq_false, if_false, List.foldl_cons]
        by_cases hrest : rest = []
        · subst hrest
          simp [List.find?]
        · have hrev : rest.reverse ≠ [] := by
            simpa [List.reverse_eq_nil_iff] using hrest
          rw [if_neg hrev]
          have := ih fuel (addTried tried c.enc) hrest
            (fun x hx => hsim x (by simp [hx]))
            (by simp only [List.length_cons] at hf; omega)
          rw [this]
          rfl

/-- C5 (amended): without a BOM the candidates are decode-tested hint first,
then language-implied encodings in table order, then the chardet guess last,
and — provided no failing candidate has an entry in the similarity table —
`detect` returns the first candidate in this order that decodes (with
`confidence = None` except for the chardet tuple), or raises
`EncodingError` with the tried list when all fail. (When a failing
candidate does have similar encodings, those are injected and tried before
the remaining candidates and may be returned instead, as the
counterexample shows.) -/
theorem detect_priority_no_similar (dec : String → List Nat → Bool)
    (chardet : List Nat → Option (String × ℚ)) (data : List Nat)
    (encoding language : Option String)
    (hno8 : BOM_UTF8.isPrefixOf (data.take 8) = false)
    (hno16 : BOM_UTF16.isPrefixOf (data.take 8) = false)
    (hne : candsOf encoding language (chardet data) ≠ [])
    (hsim : ∀ c ∈ candsOf encoding language (chardet data),
      similar_encodings c.enc = []) :
    detect dec chardet ⟨data, 0⟩ encoding language =
      (match firstDecodable dec data (candsOf encoding language (chardet data)) with
       | some c => DetectResult.ok c.enc c.conf
       | none =>
         DetectResult.encodingError "Could not detect proper encoding"
           ((candsOf encoding language (chardet data)).foldl
             (fun t c => addTried t c.enc) []),
       ⟨data, 0⟩) := by
  rw [detect]
  simp only [bsRead, bsSeek0, List.drop_zero, hno8, hno16, Bool.false_eq_true,
    if_false]
  rw [if_neg hne]
  exact detectLoop_no_similar dec data _ _ [] hne hsim (by omega)

/-- C5 amended witness: hint `x` fails, the chardet guess `y` decodes, no
similarity entries are involved; `detect` returns `('y', 0.8)`. -/
theorem detect_priority_no_similar_witness :
    BOM_UTF8.isPrefixOf (([7] : List Nat).take 8) = false ∧
    candsOf (some "x") none (chardetY [7]) ≠ [] ∧
    detect decY chardetY ⟨[7], 0⟩ (some "x") none =
      (.ok "y" (some (4 / 5)), ⟨[7], 0⟩) := by
  refine ⟨by decide, by decide, ?_⟩
  have h := detect_priority_no_similar decY chardetY [7] (some "x") none
    (by decide) (by decide) (by decide) (by decide)
  rw [h]
  rfl

/-- C9: when the diagnostic's severity reaches the configured stop level,
`_add_msg` raises `ParseWarning`/`ParseError` (according to the diagnostic's
own level) and both lists are left unchanged; otherwise the diagnostic is
appended to the matching list and nothing is raised. -/
theorem add_msg_stop_level_semantics (stop : Option Level) (level : Level)
    (m : Msg) (ws es : List Msg) :
    (shouldStop stop level = true →
      addMsgCore stop level m ws es = (some (level, m), ws, es)) ∧
    (shouldStop stop level = false →
      addMsgCore stop level m ws es =
        (none, ws ++ (if level = .warning then [m] else []),
          es ++ (if level = .error then [m] else []))) := by
  constructor
  · intro h
    match stop with
    | some sl =>
      have hle : levelsIndex sl ≤ levelsIndex level := by
        simpa [shouldStop] using h
      simp [addMsgCore, hle]
    | none => simp [shouldStop] at h
  · intro h
    match stop with
    | some sl =>
      have hle : ¬ levelsIndex sl ≤ levelsIndex level := by
        simpa [shouldStop] using h
      cases level <;> simp [addMsgCore, hle]
    | none => cases level <;> simp [addMsgCore]

/-- C9 witness: both branches at concrete inputs. -/
theorem add_msg_stop_level_semantics_witness :
    shouldStop (some .error) .warning = false ∧
    addMsgCore (some .error) .warning ⟨1, 1, [], "w"⟩ [] [] =
      (none, [⟨1, 1, [], "w"⟩], []) ∧
    shouldStop (some .warning) .error = true ∧
    addMsgCore (some .warning) .error ⟨1, 1, [], "e"⟩ [] [] =
      (some (.error, ⟨1, 1, [], "e"⟩), [], []) := by
  refine ⟨by decide, ?_, by decide, ?_⟩
  · have h := (add_msg_stop_level_semantics (some .error) .warning
      ⟨1, 1, [], "w"⟩ [] []).2 (by decide)
    simpa using h
  · exact (add_msg_stop_level_semantics (some .warning) .error
      ⟨1, 1, [], "e"⟩ [] []).1 (by decide)

/-- C8 counterexample: history does not persist across `_rewind`. Before the
rewind, absolute index 0 fetches the line; after the rewind the same fetch
fails with the cannot-seek-forward error instead of returning the line. -/
theorem rewind_history_counterexample :
    next_line [strL "a"] LineBuffer.init = some lbAfterOne ∧
    fetch_line lbAfterOne 0 = .ok (strL "a") ∧
    fetch_line (rewind lbAfterOne) 0 ≠ .ok (strL "a") :=
  ⟨rfl, rfl, fun h => nomatch h⟩

/-- C8 (amended): `_rewind` resets the cursor to the initial state and
clears the history, so `_fetch_line` at any index that was valid before the
rewind (indices `≥ 0`) now raises the cannot-seek-forward error. -/
theorem rewind_clears_history (lb : LineBuffer) (i : Int) (h : 0 ≤ i) :
    fetch_line (rewind lb) i = .error .seekForward ∧ rewind lb = LineBuffer.init := by
  refine ⟨?_, rfl⟩
  have hgt : i > (-1 : Int) := by omega
  simp [fetch_line, rewind, hgt]

/-- C8 amended witness. -/
theorem rewind_clears_history_witness :
    (0 : Int) ≤ 0 ∧ fetch_line (rewind lbAfterOne) 0 = .error .seekForward := by
  exact ⟨by decide, (rewind_clears_history lbAfterOne 0 (by decide)).1⟩

/-- C2: parsing the four-line example document yields exactly one unit with
start 15 s, end 30 s and lines `["Hello"]`, with no warnings or errors
(the parser's default stop level is `error`). -/
theorem subrip_example_single_unit :
    (parseSubRip docC2 (some .error)).units =
      [⟨1, ⟨[strL "Hello"], some 15, some 30, none⟩⟩] ∧
    (parseSubRip docC2 (some .error)).finalS.warnings = [] ∧
    (parseSubRip docC2 (some .error)).finalS.errors = [] ∧
    (parseSubRip docC2 (some .error)).isFinished = true := by decide

/-- C6 counterexample: on units numbered 1, 2, 4, 5 the parser emits 4 units
but two "Sequence number out of sync" warnings, not one. -/
theorem seq_gap_counterexample :
    (parseSubRip docSeqGap (some .error)).units.length = 4 ∧
    ((parseSubRip docSeqGap (some .error)).finalS.warnings.filter
      (fun m => m.description = "Sequence number out of sync")).length ≠ 1 := by decide

/-- C6 (amended): after the resynthesis at the line reading `4`, the stored
sequence numbers continue 3, 4, so the line reading `5` is again out of
sync: parsing emits 4 units (renumbered 1, 2, 3, 4) and exactly two
"Sequence number out of sync" warnings, the first referencing the line
holding `4` (line 9), the second the line holding `5` (line 13). -/
theorem seq_gap_resync :
    (parseSubRip docSeqGap (some .error)).units.map
        (fun u => (u.sequence, u.data.lines)) =
      [(1, [strL "A"]), (2, [strL "B"]), (3, [strL "C"]), (4, [strL "D"])] ∧
    (parseSubRip docSeqGap (some .error)).finalS.warnings =
      [⟨9, 1, strL "4", "Sequence number out of sync"⟩,
       ⟨13, 1, strL "5", "Sequence number out of sync"⟩] ∧
    (parseSubRip docSeqGap (some .error)).finalS.errors = [] ∧
    (parseSubRip docSeqGap (some .error)).isFinished = true := by decide

/-- C7 counterexample: the dotted timing line gets one warning per dot
rewritten — two, not one. -/
theorem dot_separator_counterexample :
    (parseSubRip docDot (some .error)).finalS.warnings.length ≠ 1 := by decide

/-- C7 (amended): the dotted unit parses to the same start/end seconds and
lines as the comma version, but the rewrite replaces one dot per retry, so
the two-dot line gets exactly two "Used dot as decimal separator instead of
comma." warnings (columns 9 and 26), while the comma version gets none. -/
theorem dot_separator_rewrite :
    (parseSubRip docDot (some .error)).units.map
        (fun u => (u.data.startSec, u.data.endSec, u.data.lines)) =
      (parseSubRip docComma (some .error)).units.map
        (fun u => (u.data.startSec, u.data.endSec, u.data.lines)) ∧
    (parseSubRip docDot (some .error)).units.map
        (fun u => (u.data.startSec, u.data.endSec)) = [(some 1, some 2)] ∧
    (parseSubRip docDot (some .error)).finalS.warnings =
      [⟨2, 9, strL "00:00:01.000 --> 00:00:02.000",
          "Used dot as decimal separator instead of comma."⟩,
       ⟨2, 26, strL "00:00:01.000 --> 00:00:02.000",
          "Used dot as decimal separator instead of comma."⟩] ∧
    (parseSubRip docComma (some .error)).finalS.warnings = [] := by decide

/-- C1 counterexample: `docPipe` is a well-formed one-unit document in the
claim's sense, but its text line `a|b` is split at the `|`, so the parsed
text lines differ from the document's text lines. -/
theorem well_formed_text_counterexample :
    (parseSubRip docPipe (some .error)).units.map (fun u => u.data.lines) =
      [[strL "a", strL "b"]] ∧
    [[strL "a", strL "b"]] ≠ [[strL "a|b"]] := by decide

/-! ### Termination of the `_parse` loop: supporting lemmas -/

theorem replaceFirstChar_of_not_mem {a : Char} (b : Char) :
    ∀ {l : List Char}, a ∉ l → replaceFirstChar a b l = l
  | [], _ => rfl
  | c :: cs, h => by
    have hc : c ≠ a := fun he => h (he ▸ List.mem_cons_self c cs)
    simp only [replaceFirstChar, if_neg hc]
    exact congrArg (c :: ·) (replaceFirstChar_of_not_mem b fun hm => h (List.mem_cons_of_mem c hm))

theorem mem_replaceFirstChar {x a b : Char} (hx : x ≠ a) :
    ∀ {l : List Char}, x ∈ l → x ∈ replaceFirstChar a b l
  | [], h => absurd h (List.not_mem_nil x)
  | c :: cs, h => by
    by_cases hca : c = a
    · simp only [replaceFirstChar, if_pos hca]
      rcases List.mem_cons.mp h with rfl | hm
      · exact absurd hca hx
      · exact List.mem_cons_of_mem b hm
    · simp only [replaceFirstChar, if_neg hca]
      rcases List.mem_cons.mp h with rfl | hm
      · exact List.mem_cons_self x _
      · exact List.mem_cons_of_mem c (mem_replaceFirstChar hx hm)

theorem count_replaceFirstChar {a b : Char} (hba : b ≠ a) :
    ∀ {l : List Char}, a ∈ l →
      (replaceFirstChar a b l).count a + 1 = l.count a
  | [], h => absurd h (List.not_mem_nil a)
  | c :: cs, h => by
    by_cases hca : c = a
    · subst hca
      simp [replaceFirstChar, List.count_cons, hba]
    · have hm : a ∈ cs := by
        rcases List.mem_cons.mp h with rfl | hm
        · exact absurd rfl hca
        · exact hm
      simp only [replaceFirstChar, if_neg hca, List.count_cons]
      have := count_replaceFirstChar hba hm
      omega

theorem replaceFirstChar_append_left {a : Char} (b : Char) :
    ∀ {x : List Char} (y : List Char), a ∈ x →
      replaceFirstChar a b (x ++ y) = replaceFirstChar a b x ++ y
  | [], _, h => absurd h (List.not_mem_nil a)
  | c :: cs, y, h => by
    by_cases hca : c = a
    · simp [List.cons_append, replaceFirstChar, if_pos hca]
    · rcases List.mem_cons.mp h with rfl | hm
      · exact absurd rfl hca
      · simp only [List.cons_append, replaceFirstChar, if_neg hca]
        exact congrArg (c :: ·) (replaceFirstChar_append_left b y hm)

theorem replaceFirstChar_append_right {a : Char} (b : Char) :
    ∀ {x : List Char} (y : List Char), a ∉ x →
      replaceFirstChar a b (x ++ y) = x ++ replaceFirstChar a b y
  | [], y, _ => rfl
  | c :: cs, y, h => by
    have hc : ¬(c = a) := fun he => h (he ▸ List.mem_cons_self c cs)
    simp only [List.cons_append, replaceFirstChar, if_neg hc]
    exact congrArg (c :: ·)
      (replaceFirstChar_append_right b y fun hm => h (List.mem_cons_of_mem c hm))

theorem all_replaceFirstChar {p : Char → Bool} {a b : Char} (hb : p b = true) :
    ∀ {l : List Char}, l.all p = true → (replaceFirstChar a b l).all p = true
  | [], _ => rfl
  | c :: cs, h => by
    rw [List.all_cons, Bool.and_eq_true] at h
    simp only [replaceFirstChar]
    split
    · simp [hb, h.2]
    · simp [h.1, all_replaceFirstChar hb h.2]

theorem replaceFirstChar_ne_nil {a b : Char} {l : List Char} (h : l ≠ []) :
    replaceFirstChar a b l ≠ [] := by
  cases l with
  | nil => exact absurd rfl h
  | cons c cs =>
    simp only [replaceFirstChar]
    split <;> simp

theorem countDot_drop_le (n : Nat) (l : List Char) :
    countDot (l.drop n) ≤ countDot l := by
  unfold countDot
  conv_rhs => rw [← List.take_append_drop n l]
  rw [List.count_append]
  omega

theorem countDot_rstrip_le (l : List Char) : countDot (rstrip l) ≤ countDot l := by
  unfold countDot rstrip
  rw [List.count_reverse, ← List.count_reverse '.' l]
  exact (List.dropWhile_sublist isPySpace).count_le '.'

theorem countDot_eq_zero_of_not_mem {l : List Char} (h : '.' ∉ l) :
    countDot l = 0 :=
  List.count_eq_zero.mpr h

theorem gFlag_le_one (l : List Char) : gFlag l ≤ 1 := by
  unfold gFlag
  split
  · split <;> omega
  · omega

theorem seqPot_le_one (l : List Char) (t : Option TempUnit) : seqPot l t ≤ 1 := by
  unfold seqPot
  split <;> omega

/-- `l.drop (l.takeWhile p).length = l.dropWhile p`. -/
theorem drop_length_takeWhile (p : Char → Bool) :
    ∀ l : List Char, l.drop (l.takeWhile p).length = l.dropWhile p
  | [] => rfl
  | c :: cs => by
    by_cases hc : p c
    · simp [List.takeWhile_cons, List.dropWhile_cons, hc, drop_length_takeWhile p cs]
    · simp [List.takeWhile_cons, List.dropWhile_cons, hc]

theorem dropWhile_head_not {p : Char → Bool} :
    ∀ {l : List Char} {c : Char}, (l.dropWhile p).head? = some c → p c = false
  | [], _, h => by cases h
  | x :: xs, c, h => by
    by_cases hx : p x
    · rw [List.dropWhile_cons, if_pos hx] at h
      exact dropWhile_head_not h
    · rw [List.dropWhile_cons, if_neg hx, List.head?_cons] at h
      cases h
      exact Bool.eq_false_iff.mpr hx

theorem takeWhile_append_of_all {p : Char → Bool} :
    ∀ {x : List Char} (y : List Char), x.all p = true →
      (x ++ y).takeWhile p = x ++ y.takeWhile p
  | [], y, _ => rfl
  | c :: cs, y, h => by
    rw [List.all_cons, Bool.and_eq_true] at h
    simp [List.takeWhile_cons, h.1, takeWhile_append_of_all y h.2]

theorem dropWhile_append_of_all {p : Char → Bool} :
    ∀ {x : List Char} (y : List Char), x.all p = true →
      (x ++ y).dropWhile p = y.dropWhile p
  | [], y, _ => rfl
  | c :: cs, y, h => by
    rw [List.all_cons, Bool.and_eq_true] at h
    simp [List.dropWhile_cons, h.1, dropWhile_append_of_all y h.2]

/-- `takeWhile` halts at the head of `r` when that head fails `p`. -/
theorem takeWhile_append_head {p : Char → Bool} {x r : List Char}
    (hx : x.all p = true) (hr : ∀ c, r.head? = some c → p c = false) :
    (x ++ r).takeWhile p = x := by
  rw [takeWhile_append_of_all r hx, takeWhile_nil_of_head hr, List.append_nil]

theorem dropWhile_append_head {p : Char → Bool} {x r : List Char}
    (hx : x.all p = true) (hr : ∀ c, r.head? = some c → p c = false) :
    (x ++ r).dropWhile p = r := by
  rw [dropWhile_append_of_all r hx, dropWhile_eq_self_of_head hr]

/-- Every character of a `_sequence` match is whitespace or a digit. -/
theorem matchSequence_mem {l : List Char} (h : matchSequence l = true) :
    ∀ c ∈ l, isPySpace c = true ∨ isAsciiDigit c = true := by
  simp only [matchSequence, Bool.and_eq_true, decide_eq_true_eq] at h
  obtain ⟨-, hrest⟩ := h
  rw [drop_length_takeWhile] at hrest
  intro c hc
  rw [← List.takeWhile_append_dropWhile isPySpace l] at hc
  rcases List.mem_append.mp hc with h0 | h1
  · exact Or.inl (List.mem_takeWhile_imp h0)
  · rw [← List.takeWhile_append_dropWhile isAsciiDigit (l.dropWhile isPySpace)] at h1
    rcases List.mem_append.mp h1 with h2 | h3
    · exact Or.inr (List.mem_takeWhile_imp h2)
    · exact Or.inl (List.all_eq_true.mp hrest c h3)

theorem matchSequence_not_dot {l : List Char} (h : matchSequence l = true) :
    '.' ∉ l := by
  intro hm
  rcases matchSequence_mem h '.' hm with hc | hc <;> exact absurd hc (by decide)

theorem matchSequence_not_dash {l : List Char} (h : matchSequence l = true) :
    '-' ∉ l := by
  intro hm
  rcases matchSequence_mem h '-' hm with hc | hc <;> exact absurd hc (by decide)

theorem matchSequence_eq_false_of_dash {l : List Char} (h : '-' ∈ l) :
    matchSequence l = false := by
  by_contra hb
  rw [Bool.not_eq_false] at hb
  exact matchSequence_not_dash hb h

theorem countDot_natRepr (n : Nat) : countDot (natRepr n) = 0 := by
  refine countDot_eq_zero_of_not_mem fun hm => ?_
  have hd := List.all_eq_true.mp (natRepr_all_digits n) '.' hm
  exact absurd hd (by decide)

theorem dash_not_mem_natRepr (n : Nat) : '-' ∉ natRepr n := by
  intro hm
  have hd := List.all_eq_true.mp (natRepr_all_digits n) '-' hm
  exact absurd hd (by decide)

/-- Full decomposition of a `_header` match into its regex groups. -/
theorem matchHeader_decomp {l g1 g2 : List Char}
    (h : matchHeader l = some (g1, g2)) :
    ∃ w0 t1 w1 w2 t2 w3,
      l = w0 ++ t1 ++ w1 ++ ['-', '-', '>'] ++ w2 ++ t2 ++ w3 ++ g2 ∧
      g1 = t1 ++ w1 ++ ['-', '-', '>'] ++ w2 ++ t2 ∧
      w0.all isPySpace = true ∧ t1 ≠ [] ∧ t1.all isHdrClass = true ∧
      w1.all isPySpace = true ∧ w2.all isPySpace = true ∧
      t2 ≠ [] ∧ t2.all isHdrClass = true ∧ w3.all isPySpace = true ∧
      (∀ c, g2.head? = some c → isPySpace c = false) ∧
      (w3 = [] → ∀ c, g2.head? = some c → isHdrClass c = false) := by
  simp only [matchHeader, drop_length_takeWhile] at h
  by_cases ht1n : (l.dropWhile isPySpace).takeWhile isHdrClass = []
  · rw [if_pos ht1n] at h; cases h
  rw [if_neg ht1n] at h
  by_cases hpre : (['-', '-', '>'].isPrefixOf
      (((l.dropWhile isPySpace).dropWhile isHdrClass).dropWhile isPySpace)) = true
  swap
  · rw [if_neg hpre] at h; cases h
  rw [if_pos hpre] at h
  by_cases ht2n : ((((((l.dropWhile isPySpace).dropWhile isHdrClass).dropWhile
      isPySpace).drop 3).dropWhile isPySpace).takeWhile isHdrClass) = []
  · rw [if_pos ht2n] at h; cases h
  rw [if_neg ht2n] at h
  injection h with hp
  injection hp with h1 h2
  subst h1
  subst h2
  obtain ⟨r3, hr3⟩ := List.isPrefixOf_iff_prefix.mp hpre
  have hdrop3 : (((l.dropWhile isPySpace).dropWhile isHdrClass).dropWhile
      isPySpace).drop 3 = r3 := by
    rw [← hr3]; simp
  rw [hdrop3] at ht2n ⊢
  refine ⟨l.takeWhile isPySpace,
    (l.dropWhile isPySpace).takeWhile isHdrClass,
    ((l.dropWhile isPySpace).dropWhile isHdrClass).takeWhile isPySpace,
    r3.takeWhile isPySpace,
    (r3.dropWhile isPySpace).takeWhile isHdrClass,
    ((r3.dropWhile isPySpace).dropWhile isHdrClass).takeWhile isPySpace,
    ?_, rfl, List.all_takeWhile, ht1n, List.all_takeWhile, List.all_takeWhile,
    List.all_takeWhile, ht2n, List.all_takeWhile,
    List.all_takeWhile, ?_, ?_⟩
  · simp only [List.append_assoc]
    conv_lhs => rw [← List.takeWhile_append_dropWhile isPySpace l]
    congr 1
    conv_lhs =>
      rw [← List.takeWhile_append_dropWhile isHdrClass (l.dropWhile isPySpace)]
    congr 1
    conv_lhs =>
      rw [← List.takeWhile_append_dropWhile isPySpace
        ((l.dropWhile isPySpace).dropWhile isHdrClass)]
    congr 1
    rw [← hr3]
    congr 1
    conv_lhs => rw [← List.takeWhile_append_dropWhile isPySpace r3]
    congr 1
    conv_lhs =>
      rw [← List.takeWhile_append_dropWhile isHdrClass (r3.dropWhile isPySpace)]
    congr 1
    conv_lhs =>
      rw [← List.takeWhile_append_dropWhile isPySpace
        ((r3.dropWhile isPySpace).dropWhile isHdrClass)]
  · intro c hc
    exact dropWhile_head_not hc
  · intro hw3 c hc
    have hr5 : ((r3.dropWhile isPySpace).dropWhile isHdrClass).dropWhile isPySpace =
        (r3.dropWhile isPySpace).dropWhile isHdrClass := by
      cases hr : (r3.dropWhile isPySpace).dropWhile isHdrClass with
      | nil => rfl
      | cons x xs =>
        rw [hr] at hw3
        rw [List.takeWhile_cons] at hw3
        by_cases hx : isPySpace x = true
        · rw [if_pos hx] at hw3; cases hw3
        · rw [List.dropWhile_cons, if_neg hx]
    rw [hr5] at hc
    exact dropWhile_head_not hc

theorem pyspace_not_hdrClass {c : Char} (h : isPySpace c = true) :
    isHdrClass c = false := by
  simp only [isPySpace, Bool.or_eq_true, decide_eq_true_eq] at h
  rcases h with ((((rfl | rfl) | rfl) | rfl) | rfl) | rfl <;> decide

/-- Converse direction: assembling the groups always yields a `_header`
match (used to show that the rewritten lines of the retry branches still
parse). -/
theorem matchHeader_build {w0 t1 w1 w2 t2 w3 g2 : List Char}
    (hw0 : w0.all isPySpace = true) (ht1n : t1 ≠ [])
    (ht1 : t1.all isHdrClass = true) (hw1 : w1.all isPySpace = true)
    (hw2 : w2.all isPySpace = true) (ht2n : t2 ≠ [])
    (ht2 : t2.all isHdrClass = true) (hw3 : w3.all isPySpace = true)
    (hg2sp : ∀ c, g2.head? = some c → isPySpace c = false)
    (hg2hdr : w3 = [] → ∀ c, g2.head? = some c → isHdrClass c = false) :
    matchHeader (w0 ++ t1 ++ w1 ++ ['-', '-', '>'] ++ w2 ++ t2 ++ w3 ++ g2) =
      some (t1 ++ w1 ++ ['-', '-', '>'] ++ w2 ++ t2, g2) := by
  have hL : w0 ++ t1 ++ w1 ++ ['-', '-', '>'] ++ w2 ++ t2 ++ w3 ++ g2 =
      w0 ++ (t1 ++ (w1 ++ ('-' :: '-' :: '>' :: (w2 ++ (t2 ++ (w3 ++ g2)))))) := by
    simp [List.append_assoc]
  rw [hL]
  have hWhead : ∀ c, (w3 ++ g2).head? = some c → isHdrClass c = false := by
    cases w3 with
    | nil =>
      intro c hc
      exact hg2hdr rfl c (by simpa using hc)
    | cons b w3' =>
      intro c hc
      rw [List.cons_append, List.head?_cons] at hc
      injection hc with hc
      subst hc
      rw [List.all_cons, Bool.and_eq_true] at hw3
      exact pyspace_not_hdrClass hw3.1
  have ht2head : ∀ c, (t2 ++ (w3 ++ g2)).head? = some c → isPySpace c = false := by
    cases t2 with
    | nil => exact absurd rfl ht2n
    | cons a t2' =>
      intro c hc
      rw [List.cons_append, List.head?_cons] at hc
      injection hc with hc
      subst hc
      rw [List.all_cons, Bool.and_eq_true] at ht2
      exact hdrClass_not_pyspace ht2.1
  have hArrowSp : ∀ c : Char,
      ('-' :: '-' :: '>' :: (w2 ++ (t2 ++ (w3 ++ g2)))).head? = some c →
        isPySpace c = false := by
    intro c hc
    rw [List.head?_cons] at hc
    injection hc with hc
    subst hc
    decide
  have hAhead : ∀ c,
      (w1 ++ ('-' :: '-' :: '>' :: (w2 ++ (t2 ++ (w3 ++ g2))))).head? = some c →
        isHdrClass c = false := by
    cases w1 with
    | nil =>
      intro c hc
      rw [List.nil_append, List.head?_cons] at hc
      injection hc with hc
      subst hc
      decide
    | cons b w1' =>
      intro c hc
      rw [List.cons_append, List.head?_cons] at hc
      injection hc with hc
      subst hc
      rw [List.all_cons, Bool.and_eq_true] at hw1
      exact pyspace_not_hdrClass hw1.1
  have ht1head : ∀ c,
      (t1 ++ (w1 ++ ('-' :: '-' :: '>' :: (w2 ++ (t2 ++ (w3 ++ g2)))))).head? =
        some c → isPySpace c = false := by
    cases t1 with
    | nil => exact absurd rfl ht1n
    | cons a t1' =>
      intro c hc
      rw [List.cons_append, List.head?_cons] at hc
      injection hc with hc
      subst hc
      rw [List.all_cons, Bool.and_eq_true] at ht1
      exact hdrClass_not_pyspace ht1.1
  have E1 := dropWhile_append_head hw0 ht1head
  have E2 := takeWhile_append_head ht1 hAhead
  have E3 := dropWhile_append_head ht1 hAhead
  have E4t := takeWhile_append_head hw1 hArrowSp
  have E4d := dropWhile_append_head hw1 hArrowSp
  have E7t := takeWhile_append_head hw2 ht2head
  have E7d := dropWhile_append_head hw2 ht2head
  have E9t := takeWhile_append_head ht2 hWhead
  have E9d := dropWhile_append_head ht2 hWhead
  have E11d := dropWhile_append_head hw3 hg2sp
  simp only [matchHeader, drop_length_takeWhile]
  rw [E1, E2, E3, E4d]
  have E5 : (['-', '-', '>'].isPrefixOf
      ('-' :: '-' :: '>' :: (w2 ++ (t2 ++ (w3 ++ g2))))) = true := by
    simp [List.isPrefixOf]
  have E6 : ('-' :: '-' :: '>' :: (w2 ++ (t2 ++ (w3 ++ g2)))).drop 3 =
      w2 ++ (t2 ++ (w3 ++ g2)) := rfl
  rw [E5, if_pos rfl, E6, E7t, E7d, E9t, E9d, E11d, E4t]
  rw [if_neg ht1n, if_neg ht2n]

theorem matchHeader_dash {l g1 g2 : List Char}
    (h : matchHeader l = some (g1, g2)) : '-' ∈ l := by
  obtain ⟨w0, t1, w1, w2, t2, w3, hl, -, -, -, -, -, -, -, -, -, -, -⟩ :=
    matchHeader_decomp h
  subst hl
  simp

theorem matchHeader_none_of_no_dash {l : List Char} (h : '-' ∉ l) :
    matchHeader l = none := by
  cases hm : matchHeader l with
  | none => rfl
  | some p =>
    obtain ⟨g1, g2⟩ := p
    exact absurd (matchHeader_dash hm) h

theorem gFlag_natRepr (n : Nat) : gFlag (natRepr n) = 0 := by
  unfold gFlag
  rw [matchHeader_none_of_no_dash (dash_not_mem_natRepr n)]

theorem gFlag_eq_zero_of_matchSequence {l : List Char}
    (h : matchSequence l = true) : gFlag l = 0 := by
  unfold gFlag
  rw [matchHeader_none_of_no_dash (matchSequence_not_dash h)]

theorem dash_mem_g1 {l g1 g2 : List Char}
    (h : matchHeader l = some (g1, g2)) : '-' ∈ g1 := by
  obtain ⟨w0, t1, w1, w2, t2, w3, -, hg1, -, -, -, -, -, -, -, -, -, -⟩ :=
    matchHeader_decomp h
  subst hg1
  simp

theorem countDot_g1_le {l g1 g2 : List Char}
    (h : matchHeader l = some (g1, g2)) : countDot g1 ≤ countDot l := by
  obtain ⟨w0, t1, w1, w2, t2, w3, hl, hg1, -, -, -, -, -, -, -, -, -, -⟩ :=
    matchHeader_decomp h
  subst hl
  subst hg1
  unfold countDot
  simp only [List.count_append]
  omega

/-- Group 1 of a header match re-parses cleanly (no trailing garbage). -/
theorem matchHeader_g1 {l g1 g2 : List Char}
    (h : matchHeader l = some (g1, g2)) : matchHeader g1 = some (g1, []) := by
  obtain ⟨w0, t1, w1, w2, t2, w3, hl, hg1, hw0, ht1n, ht1, hw1, hw2, ht2n, ht2,
    hw3, hsp, hhdr⟩ := matchHeader_decomp h
  have hb := @matchHeader_build [] t1 w1 w2 t2 [] [] rfl ht1n ht1 hw1
    hw2 ht2n ht2 rfl (fun c hc => by cases hc) (fun _ c hc => by cases hc)
  rw [hg1]
  simpa using hb

/-- Rewriting the first dot to a comma preserves the header match shape; in
particular it cannot create or destroy trailing garbage. -/
theorem matchHeader_replaceDot {l g1 g2 : List Char}
    (h : matchHeader l = some (g1, g2)) :
    ∃ q1 q2, matchHeader (replaceFirstChar '.' ',' l) = some (q1, q2) ∧
      (q2 = [] ↔ g2 = []) := by
  by_cases hdot : '.' ∈ l
  swap
  · exact ⟨g1, g2, by rw [replaceFirstChar_of_not_mem ',' hdot]; exact h, Iff.rfl⟩
  obtain ⟨w0, t1, w1, w2, t2, w3, hl, hg1, hw0, ht1n, ht1, hw1, hw2, ht2n, ht2,
    hw3, hsp, hhdr⟩ := matchHeader_decomp h
  have hcomma : isHdrClass ',' = true := by decide
  have hnw0 : '.' ∉ w0 := fun hm =>
    absurd (List.all_eq_true.mp hw0 '.' hm) (by decide)
  have hnw1 : '.' ∉ w1 := fun hm =>
    absurd (List.all_eq_true.mp hw1 '.' hm) (by decide)
  have hnw2 : '.' ∉ w2 := fun hm =>
    absurd (List.all_eq_true.mp hw2 '.' hm) (by decide)
  have hnw3 : '.' ∉ w3 := fun hm =>
    absurd (List.all_eq_true.mp hw3 '.' hm) (by decide)
  have hnar : '.' ∉ ['-', '-', '>'] := by decide
  subst hl
  have hassoc : w0 ++ t1 ++ w1 ++ ['-', '-', '>'] ++ w2 ++ t2 ++ w3 ++ g2 =
      w0 ++ (t1 ++ (w1 ++ (['-', '-', '>'] ++ (w2 ++ (t2 ++ (w3 ++ g2)))))) := by
    simp [List.append_assoc]
  rw [hassoc, replaceFirstChar_append_right ',' _ hnw0]
  by_cases h1 : '.' ∈ t1
  · rw [replaceFirstChar_append_left ',' _ h1]
    refine ⟨replaceFirstChar '.' ',' t1 ++ w1 ++ ['-', '-', '>'] ++ w2 ++ t2,
      g2, ?_, Iff.rfl⟩
    have hb := matchHeader_build hw0 (replaceFirstChar_ne_nil (a := '.') ht1n)
      (all_replaceFirstChar (a := '.') hcomma ht1) hw1 hw2 ht2n ht2 hw3 hsp hhdr
    rw [← hb]
    simp [List.append_assoc]
  rw [replaceFirstChar_append_right ',' _ h1,
    replaceFirstChar_append_right ',' _ hnw1,
    replaceFirstChar_append_right ',' _ hnar,
    replaceFirstChar_append_right ',' _ hnw2]
  by_cases h2 : '.' ∈ t2
  · rw [replaceFirstChar_append_left ',' _ h2]
    refine ⟨t1 ++ w1 ++ ['-', '-', '>'] ++ w2 ++ replaceFirstChar '.' ',' t2,
      g2, ?_, Iff.rfl⟩
    have hb := matchHeader_build hw0 ht1n ht1 hw1 hw2
      (replaceFirstChar_ne_nil (a := '.') ht2n)
      (all_replaceFirstChar (a := '.') hcomma ht2) hw3 hsp hhdr
    rw [← hb]
    simp [List.append_assoc]
  rw [replaceFirstChar_append_right ',' _ h2,
    replaceFirstChar_append_right ',' _ hnw3]
  have h3 : '.' ∈ g2 := by
    simp only [List.mem_append] at hdot
    tauto
  cases hg2c : g2 with
  | nil => rw [hg2c] at h3; cases h3
  | cons x xs =>
    subst hg2c
    have hsp' : ∀ c, (replaceFirstChar '.' ',' (x :: xs)).head? = some c →
        isPySpace c = false := by
      by_cases hx : x = '.'
      · subst hx
        intro c hc
        simp only [replaceFirstChar, if_pos rfl, List.head?_cons] at hc
        injection hc with hc
        subst hc
        decide
      · intro c hc
        simp only [replaceFirstChar, if_neg hx, List.head?_cons] at hc
        injection hc with hc
        subst hc
        exact hsp x rfl
    have hhdr' : w3 = [] → ∀ c, (replaceFirstChar '.' ',' (x :: xs)).head? =
        some c → isHdrClass c = false := by
      intro hw3nil c hc
      by_cases hx : x = '.'
      · exact absurd (hhdr hw3nil x rfl) (by rw [hx]; decide)
      · simp only [replaceFirstChar, if_neg hx, List.head?_cons] at hc
        injection hc with hc
        subst hc
        exact hhdr hw3nil x rfl
    refine ⟨t1 ++ w1 ++ ['-', '-', '>'] ++ w2 ++ t2,
      replaceFirstChar '.' ',' (x :: xs), ?_, ?_⟩
    · have hb := matchHeader_build hw0 ht1n ht1 hw1 hw2 ht2n ht2 hw3 hsp' hhdr'
      rw [← hb]
      simp [List.append_assoc]
    · constructor
      · intro hq
        exact absurd hq (replaceFirstChar_ne_nil (by simp))
      · intro hq
        cases hq

theorem gFlag_replaceDot {l g1 g2 : List Char}
    (h : matchHeader l = some (g1, g2)) :
    gFlag (replaceFirstChar '.' ',' l) = gFlag l := by
  obtain ⟨q1, q2, hq, hiff⟩ := matchHeader_replaceDot h
  unfold gFlag
  rw [hq, h]
  by_cases hg : g2 = []
  · simp [hg, hiff.mpr hg]
  · have hq2 : ¬q2 = [] := fun h2 => hg (hiff.mp h2)
    simp [hg, hq2]

theorem seqPot_eq_zero_of_dash {l : List Char} (h : '-' ∈ l)
    (t : Option TempUnit) : seqPot l t = 0 := by
  unfold seqPot
  rw [if_neg]
  intro hc
  rw [matchSequence_eq_false_of_dash h] at hc
  exact Bool.noConfusion hc.1

/-- `add_warning`/`add_error` touch only the two diagnostics lists. -/
theorem addMsgS_fields (stop : Option Level) (level : Level) (ln col : Int)
    (line : List Char) (descr : String) (s : S) :
    (addMsgS stop level ln col line descr s).1.lb = s.lb ∧
    (addMsgS stop level ln col line descr s).1.state = s.state ∧
    (addMsgS stop level ln col line descr s).1.temp = s.temp ∧
    (addMsgS stop level ln col line descr s).1.paused = s.paused := by
  unfold addMsgS
  rcases h : addMsgCore stop level ⟨ln, col, line, descr⟩ s.warnings s.errors
    with ⟨a, ws, es⟩
  cases a with
  | none => simp
  | some p =>
    obtain ⟨lv, m⟩ := p
    simp

theorem parse_time_fields (s : S) :
    (parse_time s).1.lb = s.lb ∧ (parse_time s).1.state = s.state ∧
    (parse_time s).1.paused = s.paused := by
  unfold parse_time
  split
  · split
    · split
      · simp
      · simp
    · simp
  · simp

theorem appendLines_fields (s : S) (ls : List (List Char)) :
    (appendLines s ls).1.lb = s.lb ∧ (appendLines s ls).1.state = s.state ∧
    (appendLines s ls).1.paused = s.paused := by
  unfold appendLines
  split
  · simp
  · simp

theorem validate_empty_spec (stop : Option Level) (s : S) :
    (validate_empty stop s).1.lb.read_lines = s.lb.read_lines ∧
    (validate_empty stop s).1.state = s.state ∧
    (validate_empty stop s).1.paused = s.paused := by
  unfold validate_empty
  by_cases h1 : s.state = MState.start
  · rw [if_pos h1]
    cases htemp : s.temp with
    | some t => simp [appendLines, htemp]
    | none =>
      unfold withFetched
      cases hf : fetch_line s.lb s.lb.current_line_num with
      | error e => simp
      | ok orig =>
        rcases ha : addMsgS stop .warning (s.lb.current_line_num + 1) 1 orig
            "Have empty line before first unit." s with ⟨s1, e1⟩
        have hfld := addMsgS_fields stop .warning (s.lb.current_line_num + 1) 1 orig
            "Have empty line before first unit." s
        rw [ha] at hfld
        simp only [] at hfld
        cases e1 with
        | none => simp [opThen, ha, hfld.1, hfld.2.1, hfld.2.2.2]
        | some e => simp [opThen, ha, hfld.1, hfld.2.1, hfld.2.2.2]
  · rw [if_neg h1]
    by_cases h2 : s.state = MState.unit
    · rw [if_pos h2]
      unfold withFetched
      cases hf : fetch_line s.lb s.lb.current_line_num with
      | error e => simp
      | ok orig =>
        rcases ha : addMsgS stop .warning (s.lb.current_line_num + 1) 1 orig
            "Have empty line between sequence number and timings." s with ⟨s1, e1⟩
        have hfld := addMsgS_fields stop .warning (s.lb.current_line_num + 1) 1 orig
            "Have empty line between sequence number and timings." s
        rw [ha] at hfld
        simp only [] at hfld
        cases e1 with
        | none => simp [opThen, ha, hfld.1, hfld.2.1, hfld.2.2.2]
        | some e => simp [opThen, ha, hfld.1, hfld.2.1, hfld.2.2.2]
    · rw [if_neg h2]
      exact ⟨rfl, rfl, rfl⟩

theorem validate_text_spec (stop : Option Level) (s : S) :
    (validate_text stop s).1.lb.read_lines = s.lb.read_lines ∧
    (validate_text stop s).1.state = s.state ∧
    (validate_text stop s).1.paused = s.paused := by
  unfold validate_text
  by_cases h1 : s.state = MState.start
  · rw [if_pos h1]
    cases htemp : s.temp with
    | some t => simp [appendLines, htemp]
    | none =>
      rcases ha : addMsgS stop .warning (s.lb.current_line_num + 1) 1
          s.lb.current_line "Junk before first unit." s with ⟨s1, e1⟩
      have hfld := addMsgS_fields stop .warning (s.lb.current_line_num + 1) 1
          s.lb.current_line "Junk before first unit." s
      rw [ha] at hfld
      simp only [] at hfld
      cases e1 with
      | none => simp [opThen, ha, hfld.1, hfld.2.1, hfld.2.2.2]
      | some e => simp [opThen, ha, hfld.1, hfld.2.1, hfld.2.2.2]
  · rw [if_neg h1]
    exact ⟨rfl, rfl, rfl⟩

theorem opThen_none (s : S) (f : S → Op) : opThen (s, none) f = f s := rfl

theorem opThen_some (s : S) (e : Exn) (f : S → Op) :
    opThen (s, some e) f = (s, some e) := rfl

theorem addMsgS_cases (stop : Option Level) (level : Level) (ln col : Int)
    (line : List Char) (descr : String) (s : S) :
    (addMsgS stop level ln col line descr s).2 = none ∨
    ∃ lv m, (addMsgS stop level ln col line descr s).2 =
      some (Exn.raisedMsg lv m) := by
  unfold addMsgS
  rcases h : addMsgCore stop level ⟨ln, col, line, descr⟩ s.warnings s.errors
    with ⟨a, ws, es⟩
  cases a with
  | none => exact Or.inl rfl
  | some p =>
    obtain ⟨lv, m⟩ := p
    exact Or.inr ⟨lv, m, rfl⟩

/-- The recurring `add_warning`-then-`raise Skip` tail: it either skips or
raises, and the resulting state differs from its subject only in the
diagnostics lists. -/
theorem warn_skip_cases (stop : Option Level) (level : Level) (ln col : Int)
    (line : List Char) (descr : String) (s : S) :
    ∃ sZ e, (opThen (addMsgS stop level ln col line descr s)
        fun s1 => (s1, some Exn.skip)) = (sZ, some e) ∧
      (e = Exn.skip ∨ ∃ lv m, e = Exn.raisedMsg lv m) ∧
      sZ.lb = s.lb ∧ sZ.state = s.state ∧ sZ.temp = s.temp ∧
      sZ.paused = s.paused := by
  rcases ha : addMsgS stop level ln col line descr s with ⟨sZ, eZ⟩
  have hfld := addMsgS_fields stop level ln col line descr s
  have hcs := addMsgS_cases stop level ln col line descr s
  rw [ha] at hfld hcs
  simp only [] at hfld hcs
  cases eZ with
  | none =>
    exact ⟨sZ, Exn.skip, by simp [opThen, ha], Or.inl rfl, hfld.1, hfld.2.1,
      hfld.2.2.1, hfld.2.2.2⟩
  | some e =>
    rcases hcs with hc | ⟨lv, m, hc⟩
    · cases hc
    · injection hc with hc
      subst hc
      exact ⟨sZ, Exn.raisedMsg lv m, by simp [opThen, ha], Or.inr ⟨lv, m, rfl⟩,
        hfld.1, hfld.2.1, hfld.2.2.1, hfld.2.2.2⟩

/-- The recurring `fetch_line`-`add_warning`-`raise Skip` tail: it crashes on
a failed fetch (leaving its subject untouched), or skips/raises with a state
that differs from `sY` only in the diagnostics lists. -/
theorem withFetched_warn_cases (stop : Option Level) (level : Level)
    (ln col : Int) (descr : String) (sY sX : S) (i : Int) :
    (withFetched sX i fun orig =>
        opThen (addMsgS stop level ln col orig descr sY) fun sZ =>
          (sZ, some Exn.skip)) = (sX, some Exn.crash) ∨
    ∃ sZ e, (withFetched sX i fun orig =>
        opThen (addMsgS stop level ln col orig descr sY) fun sZ =>
          (sZ, some Exn.skip)) = (sZ, some e) ∧
      (e = Exn.skip ∨ ∃ lv m, e = Exn.raisedMsg lv m) ∧
      sZ.lb = sY.lb ∧ sZ.state = sY.state ∧ sZ.temp = sY.temp ∧
      sZ.paused = sY.paused := by
  unfold withFetched
  cases hf : fetch_line sX.lb i with
  | error e => exact Or.inl rfl
  | ok orig =>
    obtain ⟨sZ, e, he, hcl, h1, h2, h3, h4⟩ :=
      warn_skip_cases stop level ln col orig descr sY
    exact Or.inr ⟨sZ, e, he, hcl, h1, h2, h3, h4⟩

/-- The `if tagged` warning tail of `insert_text` only touches the
diagnostics lists. -/
theorem tag_warn_fields (stop : Option Level) (s3 : S) (tagged : List Char) :
    ((if tagged ≠ [] then
        withFetched s3 s3.lb.current_line_num fun orig =>
          opThen (addMsgS stop .warning (s3.lb.current_line_num + 1) 1 orig
              "Tagged header not fully parsed." s3)
            fun s4 => (s4, some Exn.skip)
      else (s3, none)).1.lb.read_lines = s3.lb.read_lines) ∧
    ((if tagged ≠ [] then
        withFetched s3 s3.lb.current_line_num fun orig =>
          opThen (addMsgS stop .warning (s3.lb.current_line_num + 1) 1 orig
              "Tagged header not fully parsed." s3)
            fun s4 => (s4, some Exn.skip)
      else (s3, none)).1.state = s3.state) ∧
    ((if tagged ≠ [] then
        withFetched s3 s3.lb.current_line_num fun orig =>
          opThen (addMsgS stop .warning (s3.lb.current_line_num + 1) 1 orig
              "Tagged header not fully parsed." s3)
            fun s4 => (s4, some Exn.skip)
      else (s3, none)).1.paused = s3.paused) := by
  by_cases htag : tagged = []
  · simp [htag]
  · rw [if_pos htag]
    rcases withFetched_warn_cases stop .warning (s3.lb.current_line_num + 1) 1
        "Tagged header not fully parsed." s3 s3 s3.lb.current_line_num
      with hcrash | ⟨sZ, e, he, -, h1, h2, -, h4⟩
    · rw [hcrash]
      exact ⟨rfl, rfl, rfl⟩
    · rw [he]
      exact ⟨congrArg LineBuffer.read_lines h1, h2, h4⟩

/-- The shared tail of `insert_text` (append the split lines, then possibly
warn about an unparsed tag) only touches `temp` and the diagnostics. -/
theorem insert_tail_fields (stop : Option Level) (s2 : S) (tagged : List Char)
    (ls : List (List Char)) :
    ((opThen (appendLines s2 ls) fun s3 =>
      if tagged ≠ [] then
        withFetched s3 s3.lb.current_line_num fun orig =>
          opThen (addMsgS stop .warning (s3.lb.current_line_num + 1) 1 orig
              "Tagged header not fully parsed." s3)
            fun s4 => (s4, some Exn.skip)
      else (s3, none)).1.lb.read_lines = s2.lb.read_lines) ∧
    ((opThen (appendLines s2 ls) fun s3 =>
      if tagged ≠ [] then
        withFetched s3 s3.lb.current_line_num fun orig =>
          opThen (addMsgS stop .warning (s3.lb.current_line_num + 1) 1 orig
              "Tagged header not fully parsed." s3)
            fun s4 => (s4, some Exn.skip)
      else (s3, none)).1.state = s2.state) ∧
    ((opThen (appendLines s2 ls) fun s3 =>
      if tagged ≠ [] then
        withFetched s3 s3.lb.current_line_num fun orig =>
          opThen (addMsgS stop .warning (s3.lb.current_line_num + 1) 1 orig
              "Tagged header not fully parsed." s3)
            fun s4 => (s4, some Exn.skip)
      else (s3, none)).1.paused = s2.paused) := by
  cases htemp : s2.temp with
  | none => simp [appendLines, htemp, opThen]
  | some t =>
    simp only [appendLines, htemp, opThen]
    exact ⟨(tag_warn_fields stop _ tagged).1.trans (by simp),
      (tag_warn_fields stop _ tagged).2.1.trans (by simp),
      (tag_warn_fields stop _ tagged).2.2.trans (by simp)⟩

theorem insert_text_spec (stop : Option Level) (s : S) :
    (insert_text stop s).1.lb.read_lines = s.lb.read_lines ∧
    (insert_text stop s).1.state = s.state ∧
    (insert_text stop s).1.paused = s.paused := by
  unfold insert_text
  split
  · next g0len g1 heq =>
    rcases hpos : tagPosSearch g1 with _ | ⟨m0, dx, dy⟩
    · simp only [hpos, opThen_none]
      exact ⟨(insert_tail_fields stop _ g1 _).1.trans (by simp [setCurLine]),
        (insert_tail_fields stop _ g1 _).2.1.trans (by simp [setCurLine]),
        (insert_tail_fields stop _ g1 _).2.2.trans (by simp [setCurLine])⟩
    · simp only [hpos]
      cases htemp : (setCurLine s (s.lb.current_line.drop g0len)).temp with
      | none =>
        simp only [htemp, opThen_some]
        simp [setCurLine]
      | some t =>
        simp only [htemp, opThen_none]
        exact ⟨(insert_tail_fields stop _ (removeFirstSub m0 g1) _).1.trans
            (by simp [setCurLine]),
          (insert_tail_fields stop _ (removeFirstSub m0 g1) _).2.1.trans
            (by simp [setCurLine]),
          (insert_tail_fields stop _ (removeFirstSub m0 g1) _).2.2.trans
            (by simp [setCurLine])⟩
  · next heq =>
    unfold appendLines
    split <;> simp

/-- `validate_unit` either leaves the pause flag alone, or pauses with the
resynchronised sequence line, whose retry potential is strictly below the
out-of-sync line's. -/
theorem validate_unit_spec (stop : Option Level) (s : S)
    (hp : s.paused = false)
    (hseq : matchSequence s.lb.current_line = true) :
    (validate_unit stop s).1.lb.read_lines = s.lb.read_lines ∧
    (validate_unit stop s).1.state = s.state ∧
    ((validate_unit stop s).2 = none → (validate_unit stop s).1.paused = false) ∧
    ((validate_unit stop s).1.paused = true →
      compVal (validate_unit stop s).1.lb.current_line
          (validate_unit stop s).1.temp <
        compVal s.lb.current_line s.temp) := by
  simp only [validate_unit]
  by_cases hdiff : (parseIntStrip s.lb.current_line : Int) -
      (tempSeq s.temp : Int) ≠ 1
  · rw [if_pos hdiff]
    have hkey : compVal (natRepr (tempSeq s.temp + 1)) s.temp <
        compVal s.lb.current_line s.temp := by
      have h1 : countDot (natRepr (tempSeq s.temp + 1)) = 0 := countDot_natRepr _
      have h2 : gFlag (natRepr (tempSeq s.temp + 1)) = 0 := gFlag_natRepr _
      have h3 : seqPot (natRepr (tempSeq s.temp + 1)) s.temp = 0 := by
        unfold seqPot
        rw [if_neg]
        intro hcond
        have hv := hcond.2
        rw [parseIntStrip_natRepr] at hv
        push_cast at hv
        omega
      have h4 : seqPot s.lb.current_line s.temp = 1 := by
        unfold seqPot
        rw [if_pos ⟨hseq, hdiff⟩]
      unfold compVal
      rw [h1, h2, h3, h4]
      omega
    have hcl : (setCurLine { s with paused := true }
        (natRepr (tempSeq s.temp + 1))).lb.current_line =
          natRepr (tempSeq s.temp + 1) := by
      simp [setCurLine]
    rcases withFetched_warn_cases stop .warning
        ((setCurLine { s with paused := true }
          (natRepr (tempSeq s.temp + 1))).lb.current_line_num + 1) 1
        "Sequence number out of sync"
        (setCurLine { s with paused := true } (natRepr (tempSeq s.temp + 1)))
        (setCurLine { s with paused := true } (natRepr (tempSeq s.temp + 1)))
        ((setCurLine { s with paused := true }
          (natRepr (tempSeq s.temp + 1))).lb.current_line_num)
      with hcrash | ⟨sZ, e, he, hecl, h1, h2, h3, h4⟩
    · rw [hcrash]
      refine ⟨by simp [setCurLine], by simp [setCurLine], by simp, ?_⟩
      intro _
      rw [hcl]
      have : (setCurLine { s with paused := true }
          (natRepr (tempSeq s.temp + 1))).temp = s.temp := by simp [setCurLine]
      rw [this]
      exact hkey
    · rw [he]
      refine ⟨?_, ?_, by simp, ?_⟩
      · rw [h1]
        simp [setCurLine]
      · rw [h2]
        simp [setCurLine]
      · intro _
        rw [h1, h3, hcl]
        have : (setCurLine { s with paused := true }
            (natRepr (tempSeq s.temp + 1))).temp = s.temp := by simp [setCurLine]
        rw [this]
        exact hkey
  · rw [if_neg hdiff]
    by_cases hst : s.state = MState.unit_text
    · rw [if_pos hst]
      cases htemp : s.temp with
      | some t => simp [htemp, hp]
      | none => simp [htemp, hp]
    · rw [if_neg hst]
      simp [hp]

theorem fix_sequence_skip_fields (s : S) :
    (fix_sequence_skip s).1.lb = s.lb ∧ (fix_sequence_skip s).1.state = s.state ∧
    (fix_sequence_skip s).1.paused = s.paused := by
  unfold fix_sequence_skip
  exact ⟨(parse_time_fields _).1.trans (by simp),
    (parse_time_fields _).2.1.trans (by simp),
    (parse_time_fields _).2.2.trans (by simp)⟩

theorem fire_skip_sequence_start (s : S)
    (h2 : s.state = MState.start ∨ s.state = MState.unit_text) :
    (fire_skip_sequence s).1.lb = s.lb ∧
    (fire_skip_sequence s).1.state = MState.unit_text ∧
    (fire_skip_sequence s).1.paused = s.paused := by
  unfold fire_skip_sequence
  rw [if_pos (h2.elim Or.inr Or.inl)]
  exact ⟨(fix_sequence_skip_fields _).1.trans (by simp),
    (fix_sequence_skip_fields _).2.1.trans (by simp),
    (fix_sequence_skip_fields _).2.2.trans (by simp)⟩

/-- `validate_header` succeeds leaving the state untouched, or skips/aborts;
when it pauses and skips, the rewritten line's retry potential strictly
drops (one dot replaced, or the garbage suffix stripped). -/
theorem validate_header_spec (stop : Option Level) (s : S)
    (hp : s.paused = false) (hs : s.state ≠ MState.finished)
    (hsome : (matchHeader s.lb.current_line).isSome = true) :
    (validate_header stop s).1.lb.read_lines = s.lb.read_lines ∧
    (validate_header stop s).1.state ≠ MState.finished ∧
    ((validate_header stop s).2 = none → validate_header stop s = (s, none)) ∧
    ((validate_header stop s).1.paused = true →
      ((validate_header stop s).2 = some Exn.skip ∨
        (validate_header stop s).2 = some Exn.invalidTrans) →
      compVal (validate_header stop s).1.lb.current_line
          (validate_header stop s).1.temp <
        compVal s.lb.current_line s.temp) := by
  simp only [validate_header]
  by_cases h1 : s.state = MState.unit_text
  · rw [if_pos h1]
    obtain ⟨sZ, e, he, hecl, hl, hst, ht, hpz⟩ := warn_skip_cases stop .warning
      (s.lb.current_line_num + 1) 1 s.lb.current_line
      "Duplicated time information, ignoring." s
    rw [he]
    refine ⟨congrArg LineBuffer.read_lines hl, ?_, by simp, ?_⟩
    · rw [hst]; exact hs
    · intro hpz2 _
      rw [hpz, hp] at hpz2
      cases hpz2
  rw [if_neg h1]
  by_cases h2 : s.state = MState.start
  · rw [if_pos h2]
    rcases hfss : fire_skip_sequence s with ⟨s1, e1⟩
    have hfld := fire_skip_sequence_start s (Or.inl h2)
    rw [hfss] at hfld
    simp only [] at hfld
    cases e1 with
    | some e =>
      rw [opThen_some]
      refine ⟨congrArg LineBuffer.read_lines hfld.1, ?_, by simp, ?_⟩
      · rw [hfld.2.1]; exact fun hc => MState.noConfusion hc
      · intro hpz2 _
        rw [hfld.2.2, hp] at hpz2
        cases hpz2
    | none =>
      rw [opThen_none]
      obtain ⟨sZ, e, he, hecl, hl, hst, ht, hpz⟩ := warn_skip_cases stop .warning
        (s1.lb.current_line_num + 1) 1 s1.lb.current_line
        "New unit starts without a sequence." s1
      rw [he]
      refine ⟨?_, ?_, by simp, ?_⟩
      · rw [hl, hfld.1]
      · rw [hst, hfld.2.1]; exact fun hc => MState.noConfusion hc
      · intro hpz2 _
        rw [hpz, hfld.2.2, hp] at hpz2
        cases hpz2
  rw [if_neg h2]
  by_cases hdot : s.lb.current_line.contains '.' = true
  · rw [if_pos hdot]
    obtain ⟨⟨g1, g2⟩, hm⟩ := Option.isSome_iff_exists.mp hsome
    have hkey : compVal (replaceFirstChar '.' ',' s.lb.current_line) s.temp <
        compVal s.lb.current_line s.temp := by
      have hdot' : '.' ∈ s.lb.current_line := by
        by_contra hnm
        rw [contains_eq_false_of_not_mem hnm] at hdot
        cases hdot
      have hdash : '-' ∈ s.lb.current_line := matchHeader_dash hm
      have hcnt := count_replaceFirstChar (show (',' : Char) ≠ '.' by decide) hdot'
      have hg := gFlag_replaceDot hm
      have hsp1 := seqPot_eq_zero_of_dash hdash s.temp
      have hsp2 := seqPot_eq_zero_of_dash
        (mem_replaceFirstChar (b := ',') (show ('-' : Char) ≠ '.' by decide) hdash)
        s.temp
      unfold compVal
      rw [hg, hsp1, hsp2]
      unfold countDot at hcnt ⊢
      omega
    rcases withFetched_warn_cases stop .warning
        ((setCurLine { s with paused := true }
          (replaceFirstChar '.' ',' s.lb.current_line)).lb.current_line_num + 1)
        ((idxOfChar '.' s.lb.current_line : Int) + 1)
        "Used dot as decimal separator instead of comma."
        (setCurLine { s with paused := true }
          (replaceFirstChar '.' ',' s.lb.current_line))
        ({ s with paused := true })
        (({ s with paused := true } : S).lb.current_line_num)
      with hcrash | ⟨sZ, e, he, hecl, hl, hst, ht, hpz⟩
    · rw [hcrash]
      refine ⟨by simp, by simpa using hs, by simp, ?_⟩
      intro _ hsk
      rcases hsk with hsk | hsk <;> simp at hsk
    · rw [he]
      refine ⟨?_, ?_, by simp, ?_⟩
      · rw [hl]; simp [setCurLine]
      · rw [hst]; simpa [setCurLine] using hs
      · intro hpz2 hsk
        rcases hecl with rfl | ⟨lv, m, rfl⟩
        · rw [hl, ht]
          have hc1 : (setCurLine { s with paused := true }
              (replaceFirstChar '.' ',' s.lb.current_line)).lb.current_line =
                replaceFirstChar '.' ',' s.lb.current_line := by simp [setCurLine]
          have hc2 : (setCurLine { s with paused := true }
              (replaceFirstChar '.' ',' s.lb.current_line)).temp = s.temp := by
            simp [setCurLine]
          rw [hc1, hc2]
          exact hkey
        · rcases hsk with hsk | hsk <;> simp at hsk
  rw [if_neg hdot]
  rcases hm2 : matchHeader s.lb.current_line with _ | ⟨g1, g2⟩
  · simp [hm2, hs, hp]
  simp only [hm2]
  by_cases hg2 : g2 = []
  · rw [if_neg fun hne => hne hg2]
    split
    · next a b heq =>
      split
      · next p1 p2 hh1 hh2 =>
        refine ⟨rfl, hs, fun _ => rfl, ?_⟩
        intro hpz _
        rw [hp] at hpz
        cases hpz
      · next hh =>
        rcases withFetched_warn_cases stop .error (s.lb.current_line_num + 1) 1
            "Could not parse timings." s s s.lb.current_line_num
          with hcrash | ⟨sZ, e, he, hecl, hl, hst, ht, hpz⟩
        · rw [hcrash]
          refine ⟨rfl, hs, by simp, ?_⟩
          intro hpz _
          rw [hp] at hpz
          cases hpz
        · rw [he]
          refine ⟨congrArg LineBuffer.read_lines hl, ?_, by simp, ?_⟩
          · rw [hst]; exact hs
          · intro hpz2 _
            rw [hpz, hp] at hpz2
            cases hpz2
    · next hh =>
      refine ⟨rfl, hs, by simp, ?_⟩
      intro hpz _
      rw [hp] at hpz
      cases hpz
  · rw [if_pos hg2]
    have hzero : countDot s.lb.current_line = 0 := by
      refine countDot_eq_zero_of_not_mem fun hnm => ?_
      have : s.lb.current_line.contains '.' = false := by
        cases hc : s.lb.current_line.contains '.' with
        | false => rfl
        | true => exact absurd hc hdot
      exact absurd hnm (not_mem_of_contains_eq_false this)
    have hkey : compVal g1 s.temp < compVal s.lb.current_line s.temp := by
      have hcg1 : countDot g1 = 0 :=
        Nat.le_zero.mp (le_trans (countDot_g1_le hm2) (le_of_eq hzero))
      have hgl : gFlag s.lb.current_line = 1 := by
        unfold gFlag
        rw [hm2]
        simp [hg2]
      have hgg1 : gFlag g1 = 0 := by
        unfold gFlag
        rw [matchHeader_g1 hm2]
        simp
      have hsp1 := seqPot_eq_zero_of_dash (matchHeader_dash hm2) s.temp
      have hsp2 := seqPot_eq_zero_of_dash (dash_mem_g1 hm2) s.temp
      unfold compVal
      rw [hcg1, hgl, hgg1, hsp1, hsp2, hzero]
      omega
    rcases withFetched_warn_cases stop .warning
        (({ setCurLine s g1 with paused := true } : S).lb.current_line_num + 1)
        ((idxOfSub g2 s.lb.current_line + 1 : Nat) : Int)
        "Header has unrecognized content at the end."
        ({ setCurLine s g1 with paused := true })
        s s.lb.current_line_num
      with hcrash | ⟨sZ, e, he, hecl, hl, hst, ht, hpz⟩
    · rw [hcrash]
      refine ⟨rfl, hs, by simp, ?_⟩
      intro hpz _
      rw [hp] at hpz
      cases hpz
    · rw [he]
      refine ⟨?_, ?_, by simp, ?_⟩
      · rw [hl]; simp [setCurLine]
      · rw [hst]; simpa [setCurLine] using hs
      · intro hpz2 hsk
        rcases hecl with rfl | ⟨lv, m, rfl⟩
        · rw [hl, ht]
          have hc1 : ({ setCurLine s g1 with paused := true } : S).lb.current_line =
              g1 := by simp [setCurLine]
          have hc2 : ({ setCurLine s g1 with paused := true } : S).temp = s.temp := by
            simp [setCurLine]
          rw [hc1, hc2]
          exact hkey
        · rcases hsk with hsk | hsk <;> simp at hsk

theorem fire_found_empty_spec (stop : Option Level) (s : S)
    (hp : s.paused = false) (hs : s.state ≠ MState.finished) :
    (fire_found_empty stop s).1.lb.read_lines = s.lb.read_lines ∧
    (fire_found_empty stop s).1.state ≠ MState.finished ∧
    ((fire_found_empty stop s).1.paused = true →
      compVal (fire_found_empty stop s).1.lb.current_line
          (fire_found_empty stop s).1.temp <
        compVal s.lb.current_line s.temp) := by
  unfold fire_found_empty
  by_cases hst : s.state = MState.unit_text ∨ s.state = MState.start ∨
      s.state = MState.unit
  · rw [if_pos hst]
    rcases hv : validate_empty stop s with ⟨s1, e1⟩
    have hsp := validate_empty_spec stop s
    rw [hv] at hsp
    simp only [] at hsp
    cases e1 with
    | none =>
      rw [opThen_none]
      refine ⟨hsp.1, by simp, ?_⟩
      intro hpz
      have hred : ({ s1 with state := MState.start } : S).paused = s1.paused := rfl
      rw [hred, hsp.2.2, hp] at hpz
      cases hpz
    | some e =>
      rw [opThen_some]
      refine ⟨hsp.1, by rw [hsp.2.1]; exact hs, ?_⟩
      intro hpz
      rw [hsp.2.2, hp] at hpz
      cases hpz
  · rw [if_neg hst]
    refine ⟨rfl, hs, ?_⟩
    intro hpz
    rw [hp] at hpz
    cases hpz

theorem fire_found_text_spec (stop : Option Level) (s : S)
    (hp : s.paused = false) (hs : s.state ≠ MState.finished) :
    (fire_found_text stop s).1.lb.read_lines = s.lb.read_lines ∧
    (fire_found_text stop s).1.state ≠ MState.finished ∧
    ((fire_found_text stop s).1.paused = true →
      compVal (fire_found_text stop s).1.lb.current_line
          (fire_found_text stop s).1.temp <
        compVal s.lb.current_line s.temp) := by
  unfold fire_found_text
  by_cases hst : s.state = MState.unit_text ∨ s.state = MState.start
  · rw [if_pos hst]
    rcases hv : validate_text stop s with ⟨s1, e1⟩
    have hsp := validate_text_spec stop s
    rw [hv] at hsp
    simp only [] at hsp
    cases e1 with
    | none =>
      rw [opThen_none]
      rcases hit : insert_text stop { s1 with state := MState.unit_text }
        with ⟨s2, e2⟩
      have hisp := insert_text_spec stop { s1 with state := MState.unit_text }
      rw [hit] at hisp
      simp only [] at hisp
      refine ⟨hisp.1.trans hsp.1, ?_, ?_⟩
      · show s2.state ≠ MState.finished
        rw [hisp.2.1]
        simp
      · show s2.paused = true → _
        intro hpz
        rw [hisp.2.2] at hpz
        have hred : ({ s1 with state := MState.unit_text } : S).paused =
          s1.paused := rfl
        rw [hred, hsp.2.2, hp] at hpz
        cases hpz
    | some e =>
      rw [opThen_some]
      refine ⟨hsp.1, by rw [hsp.2.1]; exact hs, ?_⟩
      intro hpz
      rw [hsp.2.2, hp] at hpz
      cases hpz
  · rw [if_neg hst]
    refine ⟨rfl, hs, ?_⟩
    intro hpz
    rw [hp] at hpz
    cases hpz

theorem fire_found_sequence_spec (stop : Option Level) (s : S)
    (hp : s.paused = false) (hs : s.state ≠ MState.finished)
    (hseq : matchSequence s.lb.current_line = true) :
    (fire_found_sequence stop s).1.lb.read_lines = s.lb.read_lines ∧
    (fire_found_sequence stop s).1.state ≠ MState.finished ∧
    ((fire_found_sequence stop s).1.paused = true →
      compVal (fire_found_sequence stop s).1.lb.current_line
          (fire_found_sequence stop s).1.temp <
        compVal s.lb.current_line s.temp) := by
  unfold fire_found_sequence
  by_cases hst : s.state = MState.start
  · rw [if_pos hst]
    rcases hv : validate_unit stop s with ⟨s1, e1⟩
    have hsp := validate_unit_spec stop s hp hseq
    rw [hv] at hsp
    simp only [] at hsp
    cases e1 with
    | none =>
      rw [opThen_none]
      unfold create_unit
      refine ⟨?_, by simp, ?_⟩
      · simpa using hsp.1
      · intro hpz
        have hred : ({ { s1 with state := MState.unit } with
            parsedUnit := ({ s1 with state := MState.unit } : S).temp,
            temp := some ⟨parseIntStrip ({ s1 with state := MState.unit } :
              S).lb.current_line, emptyData⟩ } : S).paused = s1.paused := rfl
        rw [hred, hsp.2.2.1 rfl] at hpz
        cases hpz
    | some e =>
      rw [opThen_some]
      refine ⟨hsp.1, by rw [hsp.2.1]; exact hs, ?_⟩
      intro hpz
      exact hsp.2.2.2 hpz
  · rw [if_neg hst]
    refine ⟨rfl, hs, ?_⟩
    intro hpz
    rw [hp] at hpz
    cases hpz

theorem fire_found_header_spec (stop : Option Level) (s : S)
    (hp : s.paused = false) (hs : s.state ≠ MState.finished)
    (hsome : (matchHeader s.lb.current_line).isSome = true) :
    (fire_found_header stop s).1.lb.read_lines = s.lb.read_lines ∧
    (fire_found_header stop s).1.state ≠ MState.finished ∧
    (((fire_found_header stop s).2 = none ∨
      (fire_found_header stop s).2 = some Exn.skip ∨
      (fire_found_header stop s).2 = some Exn.invalidTrans) →
      (fire_found_header stop s).1.paused = true →
      compVal (fire_found_header stop s).1.lb.current_line
          (fire_found_header stop s).1.temp <
        compVal s.lb.current_line s.temp) := by
  have hst3 : s.state = MState.unit ∨ s.state = MState.unit_text ∨
      s.state = MState.start := by
    cases hq : s.state with
    | unit => exact Or.inl rfl
    | unit_text => exact Or.inr (Or.inl rfl)
    | start => exact Or.inr (Or.inr rfl)
    | finished => exact absurd hq hs
  unfold fire_found_header
  rw [if_pos hst3]
  rcases hv : validate_header stop s with ⟨s1, e1⟩
  have hsp := validate_header_spec stop s hp hs hsome
  rw [hv] at hsp
  simp only [] at hsp
  cases e1 with
  | none =>
    have hs1 : s1 = s := by
      have hpair := hsp.2.2.1 rfl
      injection hpair with hpair1 hpair2
    subst hs1
    rw [opThen_none]
    rcases hptr : parse_time { s1 with state := MState.unit_text } with ⟨sp, ep⟩
    have hpf := parse_time_fields { s1 with state := MState.unit_text }
    rw [hptr] at hpf
    simp only [] at hpf
    refine ⟨?_, ?_, ?_⟩
    · exact congrArg LineBuffer.read_lines hpf.1
    · show sp.state ≠ MState.finished
      rw [hpf.2.1]
      simp
    · intro _ hpz
      simp only [] at hpz
      rw [hpf.2.2, hp] at hpz
      cases hpz
  | some e =>
    rw [opThen_some]
    refine ⟨hsp.1, hsp.2.1, ?_⟩
    intro he hpz
    simp only [] at he hpz
    rcases he with he | he | he
    · cases he
    · exact hsp.2.2.2 hpz (Or.inl he)
    · exact hsp.2.2.2 hpz (Or.inr he)

theorem classify_spec (stop : Option Level) (s : S) (hp : s.paused = false)
    (hs : s.state ≠ MState.finished) :
    (classify stop s).1.lb.read_lines = s.lb.read_lines ∧
    (classify stop s).1.state ≠ MState.finished ∧
    (((classify stop s).2 = none ∨ (classify stop s).2 = some Exn.skip ∨
      (classify stop s).2 = some Exn.invalidTrans) →
      (classify stop s).1.paused = true →
      compVal (classify stop s).1.lb.current_line (classify stop s).1.temp <
        compVal s.lb.current_line s.temp) := by
  unfold classify
  by_cases hb : pyStrip s.lb.current_line = []
  · rw [if_pos hb]
    obtain ⟨hA, hB, hD⟩ := fire_found_empty_spec stop s hp hs
    exact ⟨hA, hB, fun _ hpz => hD hpz⟩
  rw [if_neg hb]
  by_cases hseq : s.state = MState.start ∧ matchSequence s.lb.current_line = true
  · rw [if_pos hseq]
    obtain ⟨hA, hB, hD⟩ := fire_found_sequence_spec stop s hp hs hseq.2
    exact ⟨hA, hB, fun _ hpz => hD hpz⟩
  rw [if_neg hseq]
  by_cases hhdr : (matchHeader s.lb.current_line).isSome = true
  · rw [if_pos hhdr]
    obtain ⟨hA, hB, hD⟩ := fire_found_header_spec stop s hp hs hhdr
    exact ⟨hA, hB, fun he hpz => hD he hpz⟩
  · rw [if_neg hhdr]
    obtain ⟨hA, hB, hD⟩ := fire_found_text_spec stop s hp hs
    exact ⟨hA, hB, fun _ hpz => hD hpz⟩

theorem withFetched_warn_fields (stop : Option Level) (level : Level)
    (ln col : Int) (descr : String) (sY sX : S) (i : Int)
    (h1 : sY.lb = sX.lb) (h2 : sY.state = sX.state)
    (h3 : sY.paused = sX.paused) :
    ((withFetched sX i fun orig =>
        opThen (addMsgS stop level ln col orig descr sY) fun sZ =>
          (sZ, some Exn.skip)).1.lb = sX.lb) ∧
    ((withFetched sX i fun orig =>
        opThen (addMsgS stop level ln col orig descr sY) fun sZ =>
          (sZ, some Exn.skip)).1.state = sX.state) ∧
    ((withFetched sX i fun orig =>
        opThen (addMsgS stop level ln col orig descr sY) fun sZ =>
          (sZ, some Exn.skip)).1.paused = sX.paused) := by
  rcases withFetched_warn_cases stop level ln col descr sY sX i
    with hcrash | ⟨sZ, e, he, -, hl, hst, -, hpz⟩
  · rw [hcrash]
    exact ⟨rfl, rfl, rfl⟩
  · rw [he]
    exact ⟨hl.trans h1, hst.trans h2, hpz.trans h3⟩

theorem fire_done_spec (stop : Option Level) (s : S)
    (hs : s.state ≠ MState.finished) :
    (fire_done stop s).1.lb.read_lines = s.lb.read_lines ∧
    (fire_done stop s).1.state = MState.finished ∧
    (fire_done stop s).1.paused = s.paused := by
  have hst3 : s.state = MState.unit ∨ s.state = MState.unit_text ∨
      s.state = MState.start := by
    cases hq : s.state with
    | unit => exact Or.inl rfl
    | unit_text => exact Or.inr (Or.inl rfl)
    | start => exact Or.inr (Or.inr rfl)
    | finished => exact absurd hq hs
  simp only [fire_done]
  rw [if_pos hst3]
  split
  · refine ⟨(congrArg LineBuffer.read_lines
      ((withFetched_warn_fields stop .warning _ _ _ _ _ _ rfl rfl rfl).1)).trans
        (by simp), ?_, ?_⟩
    · exact ((withFetched_warn_fields stop .warning _ _ _ _ _ _ rfl rfl rfl).2.1).trans
        (by simp)
    · exact ((withFetched_warn_fields stop .warning _ _ _ _ _ _ rfl rfl rfl).2.2).trans
        (by simp)
  · exact ⟨by simp, by simp, by simp⟩

theorem stateComp_of_ne {s : S} (h : s.state ≠ MState.finished) :
    stateComp s = 1 := by
  unfold stateComp
  rw [if_neg h]

theorem pausedComp_of_false {s : S} (h : s.paused = false) :
    pausedComp s = 0 := by
  unfold pausedComp
  rw [h]
  simp

theorem pausedComp_of_true {s : S} (h : s.paused = true) :
    pausedComp s = compVal s.lb.current_line s.temp := by
  unfold pausedComp
  rw [h]
  simp

theorem compVal_pos (l : List Char) (t : Option TempUnit) : 1 ≤ compVal l t := by
  unfold compVal
  omega

theorem compVal_le (l : List Char) (t : Option TempUnit) :
    compVal l t ≤ countDot l + 3 := by
  have hg := gFlag_le_one l
  have hsp := seqPot_le_one l t
  unfold compVal
  omega

theorem drop_eq_cons_of_getElem {α : Type} {l : List α} {n : Nat} {x : α}
    (h : l[n]? = some x) : l.drop n = x :: l.drop (n + 1) := by
  cases hd : l.drop n with
  | nil =>
    have h0 : (l.drop n)[0]? = l[n + 0]? := List.getElem?_drop l n 0
    rw [hd] at h0
    rw [Nat.add_zero, h] at h0
    simp at h0
  | cons y ys =>
    have h0 : (l.drop n)[0]? = l[n + 0]? := List.getElem?_drop l n 0
    rw [hd] at h0
    rw [Nat.add_zero, h] at h0
    simp only [List.getElem?_cons_zero] at h0
    injection h0 with h0
    subst h0
    rw [(drop_cons_of_drop hd).2]

theorem sumW_cons (l : List Char) (ls : List (List Char)) :
    sumW (l :: ls) = countDot l + 3 + sumW ls := by
  unfold sumW
  simp

/-- Every loop iteration that does not abort strictly decreases the
measure. -/
theorem iterate_decreases (doc : List (List Char)) (stop : Option Level)
    (s : S) (hs : s.state ≠ MState.finished)
    (he : (iterate doc stop s).2 = none ∨
      (iterate doc stop s).2 = some Exn.skip ∨
      (iterate doc stop s).2 = some Exn.invalidTrans) :
    measureS doc (iterate doc stop s).1 < measureS doc s := by
  simp only [iterate] at he ⊢
  by_cases hp : s.paused = true
  · rw [if_pos hp] at he ⊢
    obtain ⟨hA, hB, hD⟩ := classify_spec stop { s with paused := false } rfl hs
    have hread : (classify stop { s with paused := false }).1.lb.read_lines =
        s.lb.read_lines := hA
    unfold measureS
    rw [hread, stateComp_of_ne hB, stateComp_of_ne hs, pausedComp_of_true hp]
    cases hcp : (classify stop { s with paused := false }).1.paused with
    | false =>
      rw [pausedComp_of_false hcp]
      have := compVal_pos s.lb.current_line s.temp
      omega
    | true =>
      rw [pausedComp_of_true hcp]
      have hdec := hD he hcp
      have hdec2 : compVal (classify stop { s with paused := false
          }).1.lb.current_line (classify stop { s with paused := false }).1.temp <
          compVal s.lb.current_line s.temp := hdec
      omega
  · rw [if_neg hp] at he ⊢
    have hpf : s.paused = false := by
      cases hq : s.paused with
      | false => rfl
      | true => exact absurd hq hp
    rcases hnl : next_line doc s.lb with _ | lb1
    · simp only [hnl] at he ⊢
      obtain ⟨hA, hB, hC⟩ := fire_done_spec stop { s with paused := false } hs
      have hAs : (fire_done stop { s with paused := false }).1.lb.read_lines =
          s.lb.read_lines := hA
      have hCs : (fire_done stop { s with paused := false }).1.paused = false := hC
      unfold measureS
      rw [hAs, pausedComp_of_false hCs, pausedComp_of_false hpf,
        stateComp_of_ne hs]
      have h1 : stateComp (fire_done stop { s with paused := false }).1 = 0 := by
        unfold stateComp
        rw [if_pos hB]
      rw [h1]
      omega
    · simp only [hnl] at he ⊢
      unfold next_line at hnl
      rcases hg : doc[s.lb.read_lines.length]? with _ | raw
      · rw [hg] at hnl
        cases hnl
      rw [hg] at hnl
      injection hnl with hnl
      subst hnl
      obtain ⟨hA, hB, hD⟩ := classify_spec stop
        { { s with paused := false } with
          lb := ⟨s.lb.read_lines ++ [raw], s.lb.current_line_num + 1, rstrip raw⟩ }
        rfl hs
      have hread : (classify stop { { s with paused := false } with
          lb := ⟨s.lb.read_lines ++ [raw], s.lb.current_line_num + 1,
            rstrip raw⟩ }).1.lb.read_lines = s.lb.read_lines ++ [raw] := hA
      unfold measureS
      rw [hread, stateComp_of_ne hB, stateComp_of_ne hs, pausedComp_of_false hpf]
      have hlen : (s.lb.read_lines ++ [raw]).length = s.lb.read_lines.length + 1 := by
        simp
      rw [hlen]
      have hsplit : doc.drop s.lb.read_lines.length =
          raw :: doc.drop (s.lb.read_lines.length + 1) :=
        drop_eq_cons_of_getElem hg
      rw [hsplit, sumW_cons]
      have hbound : pausedComp (classify stop { { s with paused := false } with
          lb := ⟨s.lb.read_lines ++ [raw], s.lb.current_line_num + 1,
            rstrip raw⟩ }).1 ≤ countDot raw + 2 := by
        cases hcp : (classify stop { { s with paused := false } with
            lb := ⟨s.lb.read_lines ++ [raw], s.lb.current_line_num + 1,
              rstrip raw⟩ }).1.paused with
        | false =>
          rw [pausedComp_of_false hcp]
          omega
        | true =>
          rw [pausedComp_of_true hcp]
          have hdec := hD he hcp
          have hdec2 : compVal (rstrip raw) s.temp ≤ countDot raw + 3 :=
            le_trans (compVal_le (rstrip raw) s.temp)
              (by have := countDot_rstrip_le raw; omega)
          have hdec3 : compVal (classify stop { { s with paused := false } with
              lb := ⟨s.lb.read_lines ++ [raw], s.lb.current_line_num + 1,
                rstrip raw⟩ }).1.lb.current_line (classify stop
                { { s with paused := false } with
                  lb := ⟨s.lb.read_lines ++ [raw], s.lb.current_line_num + 1,
                    rstrip raw⟩ }).1.temp < compVal (rstrip raw) s.temp := hdec
          omega
      simp only [] at hbound
      omega

theorem measureS_takeParsed (doc : List (List Char)) (s : S) :
    measureS doc (takeParsed s).2 = measureS doc s := by
  cases hpu : s.parsedUnit with
  | none => simp [takeParsed, hpu]
  | some u => simp [takeParsed, hpu, measureS, pausedComp, stateComp]

theorem measureS_congr {doc : List (List Char)} {s1 s2 : S}
    (hlb : s1.lb = s2.lb) (hst : s1.state = s2.state) (htp : s1.temp = s2.temp)
    (hpa : s1.paused = s2.paused) : measureS doc s1 = measureS doc s2 := by
  unfold measureS pausedComp stateComp
  rw [hlb, hst, htp, hpa]

/-- The loop runs to completion whenever the fuel exceeds the measure. -/
theorem run_measure_no_fuel_out (doc : List (List Char)) (stop : Option Level) :
    ∀ (fuel : Nat) (s : S) (acc : List TempUnit), measureS doc s < fuel →
      (run doc stop fuel s acc).isOutOfFuel = false := by
  intro fuel
  induction fuel with
  | zero => exact fun s acc h => absurd h (Nat.not_lt_zero _)
  | succ fuel ih =>
    intro s acc h
    rw [run_succ]
    by_cases hf : s.state = MState.finished
    · rw [if_pos hf]
      simp [RunResult.isOutOfFuel]
    · rw [if_neg hf]
      rcases hit : iterate doc stop s with ⟨s1, e1⟩
      have hdec : (e1 = none ∨ e1 = some Exn.skip ∨
          e1 = some Exn.invalidTrans) → measureS doc s1 < measureS doc s := by
        intro hee
        have he' : (iterate doc stop s).2 = none ∨
            (iterate doc stop s).2 = some Exn.skip ∨
            (iterate doc stop s).2 = some Exn.invalidTrans := by
          rw [hit]
          exact hee
        have hd := iterate_decreases doc stop s hf he'
        rw [hit] at hd
        exact hd
      cases e1 with
      | none =>
        rcases htp : takeParsed s1 with ⟨u, s2⟩
        have hms : measureS doc s2 = measureS doc s1 := by
          have hh := measureS_takeParsed doc s1
          rw [htp] at hh
          exact hh
        simp only []
        rw [htp]
        simp only []
        by_cases h2 : s2.state = MState.finished
        · rw [if_pos h2]
          simp [RunResult.isOutOfFuel]
        · rw [if_neg h2]
          refine ih s2 (acc ++ u.toList) ?_
          have hd := hdec (Or.inl rfl)
          omega
      | some e =>
        cases e with
        | skip =>
          simp only []
          refine ih s1 acc ?_
          have hd := hdec (Or.inr (Or.inl rfl))
          omega
        | invalidTrans =>
          simp only []
          rcases ham : addMsgS stop .error (s1.lb.current_line_num + 1) 1
              s1.lb.current_line "Unparsable line" s1 with ⟨s2, e2⟩
          have hfld := addMsgS_fields stop .error (s1.lb.current_line_num + 1) 1
            s1.lb.current_line "Unparsable line" s1
          rw [ham] at hfld
          simp only [] at hfld
          cases e2 with
          | none =>
            simp only []
            have hm2 : measureS doc s2 = measureS doc s1 :=
              measureS_congr hfld.1 hfld.2.1 hfld.2.2.1 hfld.2.2.2
            refine ih s2 acc ?_
            have hd := hdec (Or.inr (Or.inr rfl))
            omega
          | some e2 => simp [RunResult.isOutOfFuel]
        | raisedMsg lv m => simp [RunResult.isOutOfFuel]
        | crash => simp [RunResult.isOutOfFuel]

theorem measureS_initS (doc : List (List Char)) :
    measureS doc initS = sumW doc + 1 := by
  unfold measureS pausedComp stateComp initS LineBuffer.init
  simp

theorem sumW_le (doc : List (List Char)) :
    sumW doc ≤ (doc.map (fun l => l.length + 3)).sum := by
  unfold sumW
  induction doc with
  | nil => simp
  | cons l ls ihd =>
    simp only [List.map_cons, List.sum_cons]
    have hc : countDot l ≤ l.length := List.count_le_length '.' l
    omega

/-- C3: the pause/retry mechanism of `SubRipParser._parse` terminates on
every finite decoded input: each paused retry either succeeds or rewrites
the current line with strictly smaller retry potential (a resynthesised
sequence number, one dot replaced by a comma, or the garbage suffix
stripped), so the loop never exhausts the `fuelFor` iteration budget. -/
theorem subrip_terminates (doc : List (List Char)) (stop : Option Level) :
    (parseSubRip doc stop).isOutOfFuel = false := by
  unfold parseSubRip
  apply run_measure_no_fuel_out
  rw [measureS_initS]
  have h2 := sumW_le doc
  unfold fuelFor
  omega

end PySubTools
